import Mathlib

/-!
# MHTML extractor: content classifier, filename sanitizer, decoder, extractor

A shallow embedding of `src/mhtmlparser/mhtmlparser.go`.

Modelling conventions.

* A Go `string` that carries text (content types, file names, paths, URLs) is a
  `GoString`, the list of its Unicode code points (the string is taken to be valid
  UTF-8).  A payload (`[]byte`, and the `HTMLContent` string that is a byte-for-byte
  copy of one) is `Bytes`.
* The target is a Unix build: `os.PathSeparator` is `/`.
* Library and operating-system behaviour the program relies on but does not define
  (random UUIDs, the Unicode case table, the HTML parser, the regular-expression
  scan, the HTTP client, the permission checks of the filesystem) is taken as a
  parameter (`Env`, `FS`).
* The filesystem is a tree of directories and regular files without symbolic links;
  a path is resolved against it as the operating system does.
* Loops whose termination depends on the environment take a `fuel` argument and
  return `none` when it runs out.
-/

namespace MHTML

/-! ## Strings -/

/-- A Go string holding text: its sequence of code points. -/
abbrev GoString := List Char

/-- A byte sequence (`[]byte`). -/
abbrev Bytes := List (Fin 256)

/-- The value of `os.PathSeparator` on the target platform. -/
def PathSeparator : Char := '/'

/-- Go `os.IsPathSeparator` on Unix. -/
def IsPathSeparator (c : Char) : Bool := c == PathSeparator

/-- Go `unicode.ToLower`: ASCII is handled by the explicit range test of the library,
every other code point goes through the Unicode case table `tbl`. -/
def unicodeToLower (tbl : Char → Char) (r : Char) : Char :=
  if r.toNat ≤ 127 then
    if 65 ≤ r.toNat ∧ r.toNat ≤ 90 then Char.ofNat (r.toNat + 32) else r
  else tbl r

/-- Go `strings.ToLower`: maps `unicode.ToLower` over the code points. -/
def ToLower (tbl : Char → Char) (s : GoString) : GoString :=
  s.map (unicodeToLower tbl)

/-- Worker of `Split`: `cur` is the current piece, reversed. -/
def splitAux (sep : Char) : GoString → GoString → List GoString
  | [], cur => [cur.reverse]
  | c :: rest, cur =>
    if c = sep then cur.reverse :: splitAux sep rest []
    else splitAux sep rest (c :: cur)

/-- Go `strings.Split(s, sep)` for a separator of one character (the program only
splits on `;` and `?`): the pieces of `s` between occurrences of `sep`, never an
empty list. -/
def Split (s : GoString) (sep : Char) : List GoString :=
  splitAux sep s []

/-- Go `strings.ReplaceAll(s, old, new)` for one-character `old` and `new`. -/
def ReplaceAll (s : GoString) (old new : Char) : GoString :=
  s.map (fun c => if c = old then new else c)

/-- Go `strings.HasPrefix`. -/
def HasPrefix (s pre : GoString) : Bool := pre.isPrefixOf s

/-- Go `strings.HasSuffix`. -/
def HasSuffix (s suf : GoString) : Bool := suf.isSuffixOf s

/-- Go `strings.TrimSuffix`: `s` without the trailing `suf`, or `s` itself. -/
def TrimSuffix (s suf : GoString) : GoString :=
  if HasSuffix s suf then s.take (s.length - suf.length) else s

/-- Go `unicode.IsSpace`. -/
def unicodeIsSpace (c : Char) : Bool :=
  let n := c.toNat
  (9 ≤ n && n ≤ 13) || n == 32 || n == 0x85 || n == 0xA0 || n == 0x1680 ||
  (0x2000 ≤ n && n ≤ 0x200A) || n == 0x2028 || n == 0x2029 || n == 0x202F ||
  n == 0x205F || n == 0x3000

/-- Go `strings.TrimSpace`. -/
def TrimSpace (s : GoString) : GoString :=
  ((s.dropWhile unicodeIsSpace).reverse.dropWhile unicodeIsSpace).reverse

/-- The `%d` verb of `fmt.Sprintf` on a non-negative integer: its decimal digits. -/
def formatDecimal (n : Nat) : GoString := Nat.toDigits 10 n

/-! ## Content classifier -/

/-- Source: `normalizeContentType` (lines 250-256). -/
def normalizeContentType (tbl : Char → Char) (contentType : GoString) : GoString :=
  if contentType = [] then "application/octet-stream".toList
  else ToLower tbl ((Split contentType ';').headD [])

/-- Source: `extensionFor` (lines 273-305). -/
def extensionFor (contentType : GoString) : GoString :=
  if contentType = "image/jpeg".toList then ".jpg".toList
  else if contentType = "image/png".toList then ".png".toList
  else if contentType = "image/webp".toList then ".webp".toList
  else if contentType = "image/gif".toList then ".gif".toList
  else if contentType = "text/css".toList then ".css".toList
  else if contentType = "text/javascript".toList ∨
      contentType = "application/javascript".toList then ".js".toList
  else if contentType = "application/json".toList then ".json".toList
  else if contentType = "font/ttf".toList then ".ttf".toList
  else if contentType = "font/otf".toList then ".otf".toList
  else if contentType = "font/woff".toList then ".woff".toList
  else if contentType = "font/woff2".toList then ".woff2".toList
  else if contentType = "text/plain".toList then ".txt".toList
  else if contentType = "text/html".toList then ".html".toList
  else ".bin".toList

/-! ## Filename sanitizer -/

/-- The character class `[a-zA-Z0-9._-]` of the sanitizer's regular expression. -/
def isSafeChar (c : Char) : Bool :=
  let n := c.toNat
  (97 ≤ n && n ≤ 122) || (65 ≤ n && n ≤ 90) || (48 ≤ n && n ≤ 57) ||
  c == '.' || c == '_' || c == '-'

/-- The call `regexp.MustCompile("[^a-zA-Z0-9._-]").ReplaceAllString(name, "_")`:
every code point outside the class is replaced by `_`. -/
def replaceUnsafe (name : GoString) : GoString :=
  name.map (fun c => if isSafeChar c then c else '_')

/-- Source: `randomID` (lines 268-271): the first 8 characters of the string form of
a fresh UUID.  `uuid n` is the string of the `n`-th UUID drawn; the result carries
the number of UUIDs drawn so far. -/
def randomID (uuid : Nat → GoString) (n : Nat) : GoString × Nat :=
  ((uuid n).take 8, n + 1)

/-- Source: `sanitizeFilename` (lines 258-266). -/
def sanitizeFilename (uuid : Nat → GoString) (n : Nat) (name : GoString) :
    GoString × Nat :=
  let name1 := ReplaceAll name PathSeparator '_'
  let name2 := replaceUnsafe name1
  if name2 = [] ∨ name2 = ['.'] ∨ name2 = ['.', '.'] then
    let r := randomID uuid n
    ("resource_".toList ++ r.1, r.2)
  else (name2, n)

/-- A lowercase hexadecimal digit. -/
def isLowerHex (c : Char) : Bool :=
  let n := c.toNat
  (48 ≤ n && n ≤ 57) || (97 ≤ n && n ≤ 102)

/-- The string form of a UUID as `uuid.UUID.String` prints it: 36 characters, `-` at
offsets 8, 13, 18 and 23, lowercase hexadecimal digits elsewhere. -/
def IsUUIDString (u : GoString) : Prop :=
  u.length = 36 ∧ ∀ i < 36,
    if i = 8 ∨ i = 13 ∨ i = 18 ∨ i = 23 then u.getD i ' ' = '-'
    else isLowerHex (u.getD i ' ') = true

/-- What the program needs of the Unicode case table: a non-ASCII code point is never
lowered to `;` or to an upper-case ASCII letter. -/
def LowerTableOK (tbl : Char → Char) : Prop :=
  ∀ c : Char, 127 < c.toNat →
    tbl c ≠ ';' ∧ ¬ (65 ≤ (tbl c).toNat ∧ (tbl c).toNat ≤ 90)

/-- The Unicode case table is idempotent: a lowered non-ASCII code point that is not
ASCII is its own lower case. -/
def LowerTableIdempotent (tbl : Char → Char) : Prop :=
  ∀ c : Char, 127 < c.toNat → 127 < (tbl c).toNat → tbl (tbl c) = tbl c

/-! ## Paths (`path/filepath`, Unix) -/

/-- Worker of `Ext`: scans the path from its end; `acc` is the suffix read so far. -/
def extAux : GoString → GoString → GoString
  | [], _ => []
  | c :: rest, acc =>
    if IsPathSeparator c then []
    else if c = '.' then c :: acc
    else extAux rest (c :: acc)

/-- Go `filepath.Ext`: the suffix beginning at the final dot of the final element of
the path, empty if there is no dot. -/
def Ext (path : GoString) : GoString := extAux path.reverse []

/-- One element of the path in `Clean`; `stack` holds the kept elements, last first. -/
def cleanStep (rooted : Bool) (stack : List GoString) (comp : GoString) : List GoString :=
  if comp = [] ∨ comp = ['.'] then stack
  else if comp = ['.', '.'] then
    match stack with
    | [] => if rooted then [] else [comp]
    | top :: rest => if top = ['.', '.'] then comp :: top :: rest else rest
  else comp :: stack

/-- Go `filepath.Clean`: the shortest equivalent path by lexical processing (repeated
separators collapsed, `.` elements dropped, inner `..` elements resolved, `..` at the
root dropped, the empty result written `.`). -/
def Clean (path : GoString) : GoString :=
  if path = [] then ['.']
  else
    let rooted := path.head? == some PathSeparator
    let comps := (Split path PathSeparator).foldl (cleanStep rooted) []
    let body := List.intercalate [PathSeparator] comps.reverse
    if rooted then PathSeparator :: body
    else if body = [] then ['.'] else body

/-- Go `filepath.Join` of two elements: empty elements are ignored, the rest is joined
by the separator and cleaned. -/
def Join (dir name : GoString) : GoString :=
  if dir ≠ [] then Clean (dir ++ PathSeparator :: name)
  else if name ≠ [] then Clean name
  else []

/-- Go `filepath.Base`: the last element of the path, trailing separators removed. -/
def Base (path : GoString) : GoString :=
  if path = [] then ['.']
  else
    let stripped := (path.reverse.dropWhile IsPathSeparator).reverse
    let last := (stripped.reverse.takeWhile (fun c => !IsPathSeparator c)).reverse
    if last = [] then [PathSeparator] else last

/-! ## Filesystem -/

/-- What a path names. -/
inductive Entry where
  | dir
  | file (data : Bytes)
deriving DecidableEq, Repr

/-- A node of the directory tree: the names on the way from the root, the root being the
empty list. -/
abbrev Node := List GoString

/-- The filesystem as the program sees it: the nodes that exist besides the root (an
association list, the first entry of a node is the live one), the working directory of
the process, and the operating system's refusals.  There are no symbolic links. -/
structure FS where
  entries : List (Node × Entry)
  cwd : Node
  mkdirDenied : Node → Bool
  writeDenied : Node → Bool

/-- What a node is: the root is a directory, another node is what its entry says. -/
def FS.lookup (fs : FS) (c : Node) : Option Entry :=
  if c = [] then some Entry.dir else fs.entries.lookup c

/-- The contents of the regular file at a node, if there is one. -/
def FS.fileAt (fs : FS) (c : Node) : Option Bytes :=
  match fs.lookup c with
  | some (Entry.file data) => some data
  | _ => none

/-- The outcome of resolving a path: the node it names and what is there; or the node
it would name, absent in an existing directory (`slash` says that separators follow the
last name); or a failure on the way (`ENOENT`, `ENOTDIR`, or an empty path). -/
inductive Resolution where
  | found (c : Node) (e : Entry)
  | absent (c : Node) (slash : Bool)
  | fails
deriving DecidableEq, Repr

/-- Path resolution from the directory `cur`, one element of the path after the other:
empty elements and `.` stay, `..` goes to the parent, a name goes to the child, which
has to be a directory unless it is the last element. -/
def walk (fs : FS) : Node → List GoString → Resolution
  | cur, [] => Resolution.found cur Entry.dir
  | cur, comp :: rest =>
    if comp = [] ∨ comp = ['.'] then walk fs cur rest
    else if comp = ['.', '.'] then
      match fs.lookup cur.dropLast with
      | some Entry.dir => walk fs cur.dropLast rest
      | _ => Resolution.fails
    else
      match fs.lookup (cur ++ [comp]) with
      | some Entry.dir => walk fs (cur ++ [comp]) rest
      | some (Entry.file data) =>
        if rest = [] then Resolution.found (cur ++ [comp]) (Entry.file data)
        else Resolution.fails
      | none =>
        if rest.all (fun x => x = []) then Resolution.absent (cur ++ [comp]) (!rest.isEmpty)
        else Resolution.fails

/-- Path resolution of the operating system: an absolute path starts at the root, a
relative one at the working directory; the empty path names nothing. -/
def resolve (fs : FS) (path : GoString) : Resolution :=
  if path = [] then Resolution.fails
  else if path.head? = some PathSeparator then walk fs [] (Split path PathSeparator)
  else
    match fs.lookup fs.cwd with
    | some Entry.dir => walk fs fs.cwd (Split path PathSeparator)
    | _ => Resolution.fails

/-- Go `os.Stat` (and `os.Lstat`, there being no symbolic links): what the path names,
`none` when the call fails. -/
def Stat (fs : FS) (path : GoString) : Option Entry :=
  match resolve fs path with
  | Resolution.found _ e => some e
  | _ => none

/-- Go `os.ReadFile`: the contents of the regular file the path names. -/
def FS.readFile (fs : FS) (path : GoString) : Option Bytes :=
  match Stat fs path with
  | some (Entry.file data) => some data
  | _ => none

/-- Source: `fileExists` (lines 307-311). -/
def fileExists (fs : FS) (path : GoString) : Bool :=
  (Stat fs path).isSome

/-- The filesystem with one more entry. -/
def FS.add (fs : FS) (c : Node) (e : Entry) : FS :=
  { fs with entries := (c, e) :: fs.entries }

/-- Go `os.Mkdir`: makes the directory when the path names an absent node of an existing
directory and the system does not refuse. -/
def Mkdir (fs : FS) (path : GoString) : Bool × FS :=
  match resolve fs path with
  | Resolution.absent c _ =>
    if fs.mkdirDenied c then (false, fs) else (true, fs.add c Entry.dir)
  | _ => (false, fs)

/-- The parent that `os.MkdirAll` computes for a path: it skips the trailing separators,
scans backward over the last element, and takes what stands before the separator it
stops at (`path[:i]`; the empty string when there is no such separator). -/
def parentOf (path : GoString) : GoString :=
  (((path.reverse.dropWhile IsPathSeparator).dropWhile
    (fun c => !IsPathSeparator c)).drop 1).reverse

/-- Go `os.MkdirAll`, by recursion on the parent; `fuel` bounds the depth of the
recursion.  `Stat` first: an existing directory is success, an existing file an error.
Else, when there is a parent, the parent is made first; then `Mkdir`, and when that
fails, `Lstat` decides: a directory that is there after all is success. -/
def mkdirAllAux : Nat → FS → GoString → Bool × FS
  | 0, fs, _ => (false, fs)
  | fuel + 1, fs, path =>
    match Stat fs path with
    | some Entry.dir => (true, fs)
    | some (Entry.file _) => (false, fs)
    | none =>
      let r : Bool × FS :=
        if parentOf path ≠ [] then mkdirAllAux fuel fs (parentOf path) else (true, fs)
      if r.1 then
        let m := Mkdir r.2 path
        if m.1 then (true, m.2)
        else
          match Stat m.2 path with
          | some Entry.dir => (true, m.2)
          | _ => (false, m.2)
      else (false, r.2)

/-- Go `os.MkdirAll`: nothing to do for an existing directory, an error for an existing
file; else the parent is made first, then the directory.  The parent is shorter than
the path, so the length of the path bounds the recursion. -/
def MkdirAll (fs : FS) (path : GoString) : Bool × FS :=
  mkdirAllAux (path.length + 1) fs path

/-- Go `os.WriteFile`: creates the file, or truncates it, and writes `data`; fails on a
directory, on a path that names nothing in an existing directory, and where the system
refuses, and then leaves the filesystem as it was. -/
def WriteFile (fs : FS) (path : GoString) (data : Bytes) : Bool × FS :=
  match resolve fs path with
  | Resolution.found c (Entry.file _) =>
    if fs.writeDenied c then (false, fs) else (true, fs.add c (Entry.file data))
  | Resolution.absent c false =>
    if fs.writeDenied c then (false, fs) else (true, fs.add c (Entry.file data))
  | _ => (false, fs)

/-! ## Data model -/

/-- Source: `Resource` (lines 23-30).  The field `Type` of the source is `Type_`. -/
structure Resource where
  Type_ : GoString
  Filename : GoString
  Data : Bytes
  Size : Int
  Source : GoString
deriving DecidableEq, Repr

/-- Source: `MHTMLParser` (lines 32-39), without the HTTP client, which is part of the
environment. -/
structure MHTMLParser where
  InputFile : GoString
  FetchExternal : Bool
  HTMLContent : Bytes
  Resources : List Resource
deriving DecidableEq, Repr

/-- Source: `New` (lines 41-50). -/
def New (inputFile : GoString) (fetchExternal : Bool) : MHTMLParser :=
  { InputFile := inputFile, FetchExternal := fetchExternal, HTMLContent := [],
    Resources := [] }

/-! ## The MIME layer and the rest of the environment -/

/-- A part handed out by `multipart.Reader.NextPart`, as the program reads it:
`part.Header.Get("Content-Type")`, `part.FileName()`, and the result of
`io.ReadAll(part)` (`none` when the read fails). -/
structure MIMEPart where
  contentType : GoString
  fileName : GoString
  body : Option Bytes
deriving DecidableEq, Repr

/-- What one call of `NextPart` finds in the body of the message before its end: a part,
or a part that cannot be read. -/
inductive PartEvent where
  | failed
  | part (p : MIMEPart)
deriving DecidableEq, Repr

/-- The file behind `p.InputFile` once opened: the `Content-Type` of its top-level MIME
header (`none` when `ReadMIMEHeader` fails, the empty string when the field is absent)
and what its body holds. -/
structure MHTMLFile where
  header : Option GoString
  events : List PartEvent

/-- A response of the HTTP client. -/
inductive HTTPResult where
  | failed
  | response (status : Nat) (body : Option Bytes)

/-- A `script` element found by the HTML parser: whether it has a `src` attribute, and
its text. -/
structure ScriptElement where
  hasSrc : Bool
  text : GoString

/-- Everything outside the program that `Parse` depends on. -/
structure Env where
  /-- The string of the `n`-th UUID that `uuid.New` draws. -/
  uuid : Nat → GoString
  /-- The Unicode lower-case mapping of non-ASCII code points. -/
  lowerTable : Char → Char
  /-- The call `os.Open`: `none` when the file cannot be opened. -/
  openFile : GoString → Option MHTMLFile
  /-- The call `mime.ParseMediaType`: `none` on error, else the media type and its
  parameters. -/
  parseMediaType : GoString → Option (GoString × List (GoString × GoString))
  /-- The `script` elements of a document in document order (`goquery`), `none` when
  the document cannot be parsed. -/
  parseHTML : Bytes → Option (List ScriptElement)
  /-- The URLs captured by the `script src` regular expression, in order. -/
  scriptSrcURLs : Bytes → List GoString
  /-- The `k`-th request of the HTTP client. -/
  httpGet : Nat → GoString → HTTPResult

/-- Go `multipart.Reader`: the boundary it was made with and what is left to read. -/
structure Reader where
  boundary : GoString
  pending : List PartEvent

/-- Outcome of `NextPart`. -/
inductive NextPartResult where
  | eof
  | err
  | part (p : MIMEPart)

/-- Go `multipart.NewReader`. -/
def NewReader (file : MHTMLFile) (boundary : GoString) : Reader :=
  { boundary := boundary, pending := file.events }

/-- Go `multipart.Reader.NextPart`.  A reader made with an empty boundary answers every
call with the error `multipart: boundary is empty` and reads nothing; otherwise the
call consumes the next part, and reports `io.EOF` after the last one. -/
def Reader.NextPart (r : Reader) : NextPartResult × Reader :=
  if r.boundary = [] then (NextPartResult.err, r)
  else
    match r.pending with
    | [] => (NextPartResult.eof, r)
    | PartEvent.failed :: rest => (NextPartResult.err, { r with pending := rest })
    | PartEvent.part p :: rest => (NextPartResult.part p, { r with pending := rest })

/-- A Go map read `params[key]`: the zero value when the key is absent. -/
def mapGet (params : List (GoString × GoString)) (key : GoString) : GoString :=
  (params.lookup key).getD []

/-- The conversion `[]byte(s)`: the UTF-8 encoding of the string. -/
def toBytes (s : GoString) : Bytes :=
  s.flatMap (fun c => (String.utf8EncodeChar c).map (fun b => (b.val : Fin 256)))

/-! ## Decoder -/

/-- The resource that `Parse` appends for a part (lines 102-108 and 110-116). -/
def embeddedResource (contentType filename : GoString) (data : Bytes) : Resource :=
  { Type_ := contentType, Filename := filename, Data := data,
    Size := (data.length : Int), Source := "embedded".toList }

/-- Source: the body of the part loop of `Parse` for a part that `NextPart` handed
out (lines 85-117).  `n` counts the UUIDs drawn. -/
def parsePart (env : Env) (part : MIMEPart) (p : MHTMLParser) (n : Nat) :
    MHTMLParser × Nat :=
  let contentType := normalizeContentType env.lowerTable part.contentType
  let named : GoString × Nat :=
    if part.fileName = [] then
      let r := randomID env.uuid n
      ("resource_".toList ++ r.1 ++ extensionFor contentType, r.2)
    else sanitizeFilename env.uuid n part.fileName
  match part.body with
  | none => (p, named.2)
  | some data =>
    if HasPrefix contentType "text/html".toList then
      let r := randomID env.uuid named.2
      let filename := "page_".toList ++ r.1 ++ ".html".toList
      ({ p with HTMLContent := data,
                Resources := p.Resources ++ [embeddedResource contentType filename data] },
        r.2)
    else
      ({ p with Resources := p.Resources ++ [embeddedResource contentType named.1 data] },
        named.2)

/-- Source: the part loop of `Parse` (lines 75-118). -/
def parseLoop (env : Env) : Nat → Reader → MHTMLParser → Nat → Option (MHTMLParser × Nat)
  | 0, _, _, _ => none
  | fuel + 1, r, p, n =>
    match r.NextPart with
    | (NextPartResult.eof, _) => some (p, n)
    | (NextPartResult.err, r1) => parseLoop env fuel r1 p n
    | (NextPartResult.part part, r1) =>
      let s := parsePart env part p n
      parseLoop env fuel r1 s.1 s.2

/-- The resource that `extractInlineScripts` appends for a script (lines 153-159);
`id` is the identifier drawn for it. -/
def inlineResource (id : GoString) (data : Bytes) : Resource :=
  { Type_ := "text/javascript".toList,
    Filename := "inline_script_".toList ++ id ++ ".js.random".toList,
    Data := data, Size := (data.length : Int), Source := "inline".toList }

/-- The resource that `downloadExternalScripts` appends for a script (lines 197-203). -/
def externalResource (name : GoString) (data : Bytes) : Resource :=
  { Type_ := "text/javascript".toList, Filename := name,
    Data := data, Size := (data.length : Int), Source := "external".toList }

/-- Source: the callback of `extractInlineScripts` (lines 148-162), over the elements in
document order. -/
def inlineScriptsLoop (env : Env) : List ScriptElement → Nat → List Resource →
    List Resource × Nat
  | [], n, results => (results, n)
  | s :: rest, n, results =>
    if !s.hasSrc then
      let code := TrimSpace s.text
      if code ≠ [] then
        let data := toBytes code
        let r := randomID env.uuid n
        inlineScriptsLoop env rest r.2 (results ++ [inlineResource r.1 data])
      else inlineScriptsLoop env rest n results
    else inlineScriptsLoop env rest n results

/-- Source: `extractInlineScripts` (lines 139-164): `none` is the error return. -/
def extractInlineScripts (env : Env) (p : MHTMLParser) (n : Nat) :
    Option (List Resource) × Nat :=
  match env.parseHTML p.HTMLContent with
  | none => (none, n)
  | some elems =>
    let r := inlineScriptsLoop env elems n []
    (some r.1, r.2)

/-- Source: the loop of `downloadExternalScripts` (lines 172-204); `k` counts the
requests made. -/
def downloadLoop (env : Env) : List GoString → Nat → Nat → List Resource →
    List Resource × Nat
  | [], _, n, results => (results, n)
  | url :: rest, k, n, results =>
    match env.httpGet k url with
    | HTTPResult.failed => downloadLoop env rest (k + 1) n results
    | HTTPResult.response status body =>
      if status ≠ 200 then downloadLoop env rest (k + 1) n results
      else
        match body with
        | none => downloadLoop env rest (k + 1) n results
        | some data =>
          let s := sanitizeFilename env.uuid n (Base ((Split url '?').headD []))
          let named : GoString × Nat :=
            if s.1 = [] ∨ !HasSuffix s.1 ".js".toList then
              let r := randomID env.uuid s.2
              ("script_".toList ++ r.1 ++ ".js".toList, r.2)
            else s
          downloadLoop env rest (k + 1) named.2 (results ++ [externalResource named.1 data])

/-- Source: `downloadExternalScripts` (lines 166-206); it has no error return. -/
def downloadExternalScripts (env : Env) (p : MHTMLParser) (n : Nat) :
    List Resource × Nat :=
  downloadLoop env (env.scriptSrcURLs p.HTMLContent) 0 n []

/-- The errors `Parse` returns. -/
inductive ParseError where
  | openFile
  | readHeader
  | mediaType
deriving DecidableEq, Repr

/-- Source: the tail of `Parse` (lines 120-136): the script passes. -/
def parseScripts (env : Env) (p : MHTMLParser) (n : Nat) : MHTMLParser :=
  if p.HTMLContent ≠ [] then
    let inl := extractInlineScripts env p n
    let p1 : MHTMLParser :=
      match inl.1 with
      | some scripts => { p with Resources := p.Resources ++ scripts }
      | none => p
    if p1.FetchExternal then
      let ext := downloadExternalScripts env p1 inl.2
      { p1 with Resources := p1.Resources ++ ext.1 }
    else p1
  else p

/-- Source: `Parse` (lines 52-137).  The result is `none` when the part loop does not
end within `fuel` calls of `NextPart`, else the error returned or the parser after a
successful return.  `n` is the number of UUIDs drawn before the call. -/
def Parse (env : Env) (fuel : Nat) (p : MHTMLParser) (n : Nat) :
    Option (Except ParseError MHTMLParser) :=
  match env.openFile p.InputFile with
  | none => some (Except.error ParseError.openFile)
  | some file =>
    match file.header with
    | none => some (Except.error ParseError.readHeader)
    | some contentType =>
      match env.parseMediaType contentType with
      | none => some (Except.error ParseError.mediaType)
      | some (_, params) =>
        let mr := NewReader file (mapGet params "boundary".toList)
        match parseLoop env fuel mr { p with Resources := [] } n with
        | none => none
        | some (p1, n1) => some (Except.ok (parseScripts env p1 n1))

/-- Source: `GetHTMLContent` (lines 245-248). -/
def GetHTMLContent (p : MHTMLParser) : Bytes := p.HTMLContent

/-! ## Extractor -/

/-- The errors `ExtractResources` returns. -/
inductive ExtractError where
  | mkdir
  | invalidIndex (idx : Int)
  | write (path : GoString)
deriving DecidableEq, Repr

/-- Source: `contains` (lines 313-317); the set `map[int]struct` is the list of its
keys. -/
def contains (set : List Int) (val : Int) : Bool := set.contains val

/-- Source: the validation loop of `ExtractResources` (lines 215-221): the first index
out of range is the error, else the set of the indices. -/
def validateSelected (len : Nat) : List Int → List Int → Except Int (List Int)
  | [], set => Except.ok set
  | idx :: rest, set =>
    if idx < 0 ∨ idx ≥ (len : Int) then Except.error idx
    else validateSelected len rest (idx :: set)

/-- The call `fmt.Sprintf("%s_%d%s", base, counter, ext)` of line 234. -/
def suffixedPath (base : GoString) (counter : Nat) (ext : GoString) : GoString :=
  base ++ '_' :: formatDecimal counter ++ ext

/-- Source: the collision loop of `ExtractResources` (lines 232-236).  The counter of
the source is a 64-bit integer; it is a natural number here, the two agree below
`2^63` iterations. -/
def collisionLoop (fs : FS) (base ext : GoString) : Nat → Nat → GoString → Option GoString
  | 0, _, _ => none
  | fuel + 1, counter, outputPath =>
    if fileExists fs outputPath then
      collisionLoop fs base ext fuel (counter + 1) (suffixedPath base counter ext)
    else some outputPath

/-- Source: the resource loop of `ExtractResources` (lines 223-242).  `nonNil` is the
test `selected != nil`; `i` is the index of the first resource of the list. -/
def extractLoop (fuel : Nat) (outputDir : GoString) (nonNil : Bool)
    (selectedSet : List Int) :
    List Resource → Nat → FS → List GoString →
      Option (Except ExtractError (List GoString) × FS)
  | [], _, fs, paths => some (Except.ok paths, fs)
  | res :: rest, i, fs, paths =>
    if nonNil && !contains selectedSet (i : Int) then
      extractLoop fuel outputDir nonNil selectedSet rest (i + 1) fs paths
    else
      let outputPath := Join outputDir res.Filename
      let base := TrimSuffix outputPath (Ext outputPath)
      let ext := Ext outputPath
      match collisionLoop fs base ext fuel 1 outputPath with
      | none => none
      | some outputPath1 =>
        match WriteFile fs outputPath1 res.Data with
        | (false, fs1) => some (Except.error (ExtractError.write outputPath1), fs1)
        | (true, fs1) =>
          extractLoop fuel outputDir nonNil selectedSet rest (i + 1) fs1
            (paths ++ [outputPath1])

/-- Source: `ExtractResources` (lines 208-243).  `selected` is the caller's slice, `none`
being the nil slice.  The result is `none` when a collision loop does not end within
`fuel` iterations, else the value returned together with the filesystem the call
leaves. -/
def ExtractResources (fuel : Nat) (fs : FS) (p : MHTMLParser) (outputDir : GoString)
    (selected : Option (List Int)) :
    Option (Except ExtractError (List GoString) × FS) :=
  match MkdirAll fs outputDir with
  | (false, fs1) => some (Except.error ExtractError.mkdir, fs1)
  | (true, fs1) =>
    match validateSelected p.Resources.length (selected.getD []) [] with
    | Except.error idx => some (Except.error (ExtractError.invalidIndex idx), fs1)
    | Except.ok selectedSet =>
      extractLoop fuel outputDir selected.isSome selectedSet p.Resources 0 fs1 []

/-! ## Specification of the extractor -/

/-- The path the specification resolves a candidate to, on a filesystem: a path that
does not exist; the candidate itself when it is free, otherwise the candidate with the
suffix `_k` before its extension, for the smallest `k >= 1` that gives a free path. -/
def ResolvedPath (fs : FS) (cand path : GoString) : Prop :=
  fileExists fs path = false ∧
  ((fileExists fs cand = false ∧ path = cand) ∨
   (fileExists fs cand = true ∧ ∃ k : Nat, 1 ≤ k ∧
      path = suffixedPath (TrimSuffix cand (Ext cand)) k (Ext cand) ∧
      ∀ j : Nat, 1 ≤ j → j < k →
        fileExists fs (suffixedPath (TrimSuffix cand (Ext cand)) j (Ext cand)) = true))

/-- The writes the specification asks for, one per resource and in order: each goes to
the path resolved on the filesystem as the writes before it left it, succeeds, and puts
the payload there. -/
def WriteTrace (outputDir : GoString) : FS → List Resource → List GoString → FS → Prop
  | fs, [], [], fs1 => fs1 = fs
  | fs, res :: rest, path :: paths, fs1 =>
    ResolvedPath fs (Join outputDir res.Filename) path ∧
    (WriteFile fs path res.Data).1 = true ∧
    WriteTrace outputDir (WriteFile fs path res.Data).2 rest paths fs1
  | _, _, _, _ => False

/-- The resources a call selects, in ascending order of index: all of them for a nil
slice, else those whose index is in the slice.  `i` is the index of the first resource
of the list. -/
def selectedFrom (nonNil : Bool) (set : List Int) : List Resource → Nat → List Resource
  | [], _ => []
  | res :: rest, i =>
    if nonNil && !contains set (i : Int) then selectedFrom nonNil set rest (i + 1)
    else res :: selectedFrom nonNil set rest (i + 1)

/-- The selected indices in ascending order, each once. -/
def selectedIndices (len : Nat) (l : List Int) : List Nat :=
  (List.range len).filter (fun i => l.contains (i : Int))

/-! ## Specification of the decoder, and sample data -/

/-- A UUID string. -/
def sampleUUID : GoString := "3f2a9c01-7b4e-4d1a-9c3e-5a6b7c8d9e0f".toList

/-- A MIME part whose header and body can be read. -/
structure ReadablePart where
  contentType : GoString
  fileName : GoString
  data : Bytes
deriving DecidableEq, Repr

/-- The part as `NextPart` hands it out. -/
def ReadablePart.toPart (q : ReadablePart) : MIMEPart :=
  { contentType := q.contentType, fileName := q.fileName, body := some q.data }

/-- The body of a message made of readable parts only. -/
def readableEvents (parts : List ReadablePart) : List PartEvent :=
  parts.map (fun q => PartEvent.part q.toPart)

/-- The test of line 99 on a part: its normalized content type begins with
`text/html`. -/
def isHTMLPart (tbl : Char → Char) (q : ReadablePart) : Bool :=
  HasPrefix (normalizeContentType tbl q.contentType) "text/html".toList

/-- The body of the last part that passes the test of line 99. -/
def lastHTMLBody (tbl : Char → Char) (parts : List ReadablePart) : Option Bytes :=
  ((parts.filter (isHTMLPart tbl)).getLast?).map (fun q => q.data)

/-- The body of the first part whose normalized content type is `text/html`. -/
def firstHTMLBody (tbl : Char → Char) (parts : List ReadablePart) : Option Bytes :=
  ((parts.filter
    (fun q => normalizeContentType tbl q.contentType == "text/html".toList)).head?).map
    (fun q => q.data)

/-- A part is recorded by a resource: the resource has the part's normalized content
type and body, the size of the body, and the origin `embedded`. -/
def Records (tbl : Char → Char) (q : ReadablePart) (res : Resource) : Prop :=
  res.Type_ = normalizeContentType tbl q.contentType ∧ res.Data = q.data ∧
  res.Size = (q.data.length : Int) ∧ res.Source = "embedded".toList

/-- An environment for the examples: every file opens as `file`, a media type has the
parameters `params`, a document has no script. -/
def sampleEnv (file : MHTMLFile) (params : List (GoString × GoString)) : Env :=
  { uuid := fun _ => sampleUUID,
    lowerTable := id,
    openFile := fun _ => some file,
    parseMediaType := fun ct => some (ct, params),
    parseHTML := fun _ => some [],
    scriptSrcURLs := fun _ => [],
    httpGet := fun _ _ => HTTPResult.failed }

/-- A message with two `text/html` parts. -/
def twoHTMLParts : List ReadablePart :=
  [ { contentType := "text/html".toList, fileName := [], data := [65] },
    { contentType := "text/html".toList, fileName := [], data := [66] } ]

/-- The file of `twoHTMLParts`. -/
def twoHTMLFile : MHTMLFile :=
  { header := some "multipart/related; boundary=sep".toList,
    events := readableEvents twoHTMLParts }

/-- A file whose header names a media type without a boundary parameter. -/
def noBoundaryFile : MHTMLFile :=
  { header := some "multipart/related".toList,
    events := readableEvents twoHTMLParts }

/-- A message of three parts: a page, an image, a style sheet. -/
def threeParts : List ReadablePart :=
  [ { contentType := "text/html; charset=utf-8".toList, fileName := [], data := [60, 104, 62] },
    { contentType := "image/png".toList, fileName := "a.png".toList, data := [137, 80] },
    { contentType := "TEXT/CSS".toList, fileName := [], data := [] } ]

/-- The file of `threeParts`. -/
def threePartFile : MHTMLFile :=
  { header := some "multipart/related; boundary=sep".toList,
    events := readableEvents threeParts }

/-- The parameters of the header of the sample files. -/
def sepParams : List (GoString × GoString) := [("boundary".toList, "sep".toList)]

/-- A filesystem that holds the working directory `/work` and nothing else, with no
refusal. -/
def emptyFS : FS :=
  { entries := [ (["work".toList], Entry.dir) ], cwd := ["work".toList],
    mkdirDenied := fun _ => false, writeDenied := fun _ => false }

/-- Two resources with the same file name. -/
def sameNameResources : List Resource :=
  [ { Type_ := "text/css".toList, Filename := "name.ext".toList, Data := [1, 2],
      Size := 2, Source := "embedded".toList },
    { Type_ := "text/css".toList, Filename := "name.ext".toList, Data := [3],
      Size := 1, Source := "embedded".toList } ]

/-- A parser holding `sameNameResources`. -/
def sameNameParser : MHTMLParser :=
  { InputFile := [], FetchExternal := false, HTMLContent := [],
    Resources := sameNameResources }

/-- A parser holding one resource. -/
def singleParser : MHTMLParser :=
  { InputFile := [], FetchExternal := false, HTMLContent := [],
    Resources := [ { Type_ := "text/css".toList, Filename := "a.css".toList, Data := [7],
                     Size := 1, Source := "embedded".toList } ] }

/-- A filesystem that holds the output directory `/work/out` with the file `name.ext`
in it. -/
def busyFS : FS :=
  { entries := [ (["work".toList, "out".toList, "name.ext".toList], Entry.file [9]),
                 (["work".toList, "out".toList], Entry.dir),
                 (["work".toList], Entry.dir) ],
    cwd := ["work".toList],
    mkdirDenied := fun _ => false, writeDenied := fun _ => false }

/-- A file name that is one ordinary path element: not empty, without separator, and
neither `.` nor `..`.  The names `Parse` gives to resources are of this kind. -/
def IsPlainName (name : GoString) : Prop :=
  name ≠ [] ∧ PathSeparator ∉ name ∧ name ≠ ['.'] ∧ name ≠ ['.', '.']

/-- A part whose kind begins with `text/html` without being it, with a declared file
name. -/
def html5Part : ReadablePart :=
  { contentType := "text/html5".toList, fileName := "a.bin".toList, data := [65] }

/-- A file whose body is `html5Part`. -/
def html5File : MHTMLFile :=
  { header := some "multipart/related; boundary=sep".toList,
    events := readableEvents [html5Part] }

/-- A `script` element without `src` attribute whose text is `var x=1;` between blanks. -/
def inlineScript : ScriptElement :=
  { hasSrc := false, text := " var x=1; ".toList }

/-- An environment whose HTML parser finds `inlineScript` and a `script` element with a
`src` attribute in every document. -/
def scriptEnv (file : MHTMLFile) : Env :=
  { sampleEnv file sepParams with
    parseHTML := fun _ => some [inlineScript, { hasSrc := true, text := [] }] }

/-- The file name the specification gives to a part before the test of line 99: the
declared file name, sanitized, when the part declares one, else
`resource_<id><extensionFor(kind)>`; with the number of UUIDs drawn afterwards. -/
def declaredName (env : Env) (q : ReadablePart) (n : Nat) : GoString × Nat :=
  if q.fileName = [] then
    ("resource_".toList ++ (randomID env.uuid n).1 ++
      extensionFor (normalizeContentType env.lowerTable q.contentType),
     (randomID env.uuid n).2)
  else sanitizeFilename env.uuid n q.fileName

/-- Every node of the first filesystem is in the second, with the same contents, and the
working directory is the same. -/
def Keeps (fs fs1 : FS) : Prop :=
  fs1.cwd = fs.cwd ∧ ∀ c e, fs.lookup c = some e → fs1.lookup c = some e

/-- The second filesystem is the first with more directories: every node is kept, the
regular files and their contents are the same, and so are the refusals. -/
def OnlyDirsAdded (fs fs1 : FS) : Prop :=
  Keeps fs fs1 ∧ (∀ c, fs1.fileAt c = fs.fileAt c) ∧
  fs1.writeDenied = fs.writeDenied ∧ fs1.mkdirDenied = fs.mkdirDenied

/-- A parser holding one resource whose file name is empty. -/
def emptyNameParser : MHTMLParser :=
  { InputFile := [], FetchExternal := false, HTMLContent := [],
    Resources := [ { Type_ := "text/css".toList, Filename := [], Data := [7],
                     Size := 1, Source := "embedded".toList } ] }

/-! # Theorems -/

/-! ## Strings -/

theorem splitAux_headD (sep : Char) (s cur : GoString) :
    (splitAux sep s cur).headD [] = cur.reverse ++ s.takeWhile (fun c => c != sep) := by
  induction s generalizing cur with
  | nil => simp [splitAux]
  | cons c rest ih =>
    by_cases h : c = sep
    · simp [splitAux, h]
    · rw [splitAux, if_neg h, ih]
      simp [h]

theorem Split_headD (s : GoString) (sep : Char) :
    (Split s sep).headD [] = s.takeWhile (fun c => c != sep) := by
  rw [Split, splitAux_headD]; simp

theorem toNat_ofNat_small (n : Nat) (h : n < 55296) : (Char.ofNat n).toNat = n := by
  unfold Char.ofNat
  have hv : n.isValidChar := Or.inl h
  simp only [hv, Char.toNat, Char.ofNatAux, dif_pos]
  rfl

theorem char_eq_of_toNat (a b : Char) (h : a.toNat = b.toNat) : a = b := by
  apply Char.ext
  apply UInt32.ext
  exact h

/-- An ASCII code point is lowered to a code point that is neither `;` nor upper case,
unless it is `;` itself. -/
theorem unicodeToLower_ascii (tbl : Char → Char) (c : Char) (h : c.toNat ≤ 127) :
    ¬ (65 ≤ (unicodeToLower tbl c).toNat ∧ (unicodeToLower tbl c).toNat ≤ 90) ∧
    (unicodeToLower tbl c).toNat ≤ 127 ∧
    (c ≠ ';' → unicodeToLower tbl c ≠ ';') := by
  unfold unicodeToLower
  rw [if_pos h]
  by_cases hu : 65 ≤ c.toNat ∧ c.toNat ≤ 90
  · rw [if_pos hu]
    have e : (Char.ofNat (c.toNat + 32)).toNat = c.toNat + 32 :=
      toNat_ofNat_small _ (by omega)
    refine ⟨by omega, by omega, fun _ hc => ?_⟩
    have : (Char.ofNat (c.toNat + 32)).toNat = (';' : Char).toNat := by rw [hc]
    rw [e] at this
    have h59 : (';' : Char).toNat = 59 := by decide
    omega
  · rw [if_neg hu]
    exact ⟨hu, h, fun hc => hc⟩

theorem unicodeToLower_props (tbl : Char → Char) (ht : LowerTableOK tbl) (c : Char) :
    ¬ (65 ≤ (unicodeToLower tbl c).toNat ∧ (unicodeToLower tbl c).toNat ≤ 90) ∧
    (c ≠ ';' → unicodeToLower tbl c ≠ ';') := by
  by_cases h : c.toNat ≤ 127
  · obtain ⟨h1, _, h3⟩ := unicodeToLower_ascii tbl c h
    exact ⟨h1, h3⟩
  · have hc : 127 < c.toNat := by omega
    obtain ⟨t1, t2⟩ := ht c hc
    have e : unicodeToLower tbl c = tbl c := by
      unfold unicodeToLower; rw [if_neg h]
    rw [e]
    exact ⟨t2, fun _ => t1⟩

theorem unicodeToLower_idem (tbl : Char → Char) (ht : LowerTableOK tbl)
    (hi : LowerTableIdempotent tbl) (c : Char) :
    unicodeToLower tbl (unicodeToLower tbl c) = unicodeToLower tbl c := by
  by_cases h : c.toNat ≤ 127
  · obtain ⟨h1, h2, _⟩ := unicodeToLower_ascii tbl c h
    generalize unicodeToLower tbl c = d at h1 h2
    unfold unicodeToLower
    rw [if_pos h2, if_neg h1]
  · have hc : 127 < c.toNat := by omega
    obtain ⟨_, t2⟩ := ht c hc
    have e : unicodeToLower tbl c = tbl c := by
      unfold unicodeToLower; rw [if_neg h]
    rw [e]
    by_cases h2 : (tbl c).toNat ≤ 127
    · unfold unicodeToLower
      rw [if_pos h2, if_neg t2]
    · unfold unicodeToLower
      rw [if_neg h2]
      exact hi c hc (by omega)

theorem ToLower_idem (tbl : Char → Char) (ht : LowerTableOK tbl)
    (hi : LowerTableIdempotent tbl) (s : GoString) :
    ToLower tbl (ToLower tbl s) = ToLower tbl s := by
  induction s with
  | nil => rfl
  | cons c rest ih =>
    simp only [ToLower, List.map_cons, List.cons.injEq] at ih ⊢
    exact ⟨unicodeToLower_idem tbl ht hi c, ih⟩

theorem takeWhile_ne_of_not_mem (sep : Char) (s : GoString) (h : sep ∉ s) :
    s.takeWhile (fun c => c != sep) = s := by
  induction s with
  | nil => rfl
  | cons c rest ih =>
    have hc : c ≠ sep := fun e => h (by simp [e])
    have hr : sep ∉ rest := fun e => h (by simp [e])
    simp [List.takeWhile_cons, hc, ih hr]

theorem not_mem_takeWhile_ne (sep : Char) (s : GoString) :
    sep ∉ s.takeWhile (fun c => c != sep) := by
  intro h
  have := List.mem_takeWhile_imp h
  simp at this

theorem ToLower_no_semicolon (tbl : Char → Char) (ht : LowerTableOK tbl) (s : GoString)
    (h : ';' ∉ s) : ';' ∉ ToLower tbl s := by
  intro hm
  simp only [ToLower, List.mem_map] at hm
  obtain ⟨c, hc, e⟩ := hm
  have hne : c ≠ ';' := fun e2 => h (e2 ▸ hc)
  exact (unicodeToLower_props tbl ht c).2 hne e

/-- The result of `normalizeContentType` holds no `;` and no upper-case ASCII letter. -/
theorem normalizeContentType_chars (tbl : Char → Char) (ht : LowerTableOK tbl)
    (s : GoString) (c : Char) (hc : c ∈ normalizeContentType tbl s) :
    c ≠ ';' ∧ ¬ (65 ≤ c.toNat ∧ c.toNat ≤ 90) := by
  unfold normalizeContentType at hc
  by_cases hs : s = []
  · rw [if_pos hs] at hc
    revert c
    decide
  · rw [if_neg hs, Split_headD] at hc
    constructor
    · intro e
      exact ToLower_no_semicolon tbl ht _ (not_mem_takeWhile_ne ';' s) (e ▸ hc)
    · simp only [ToLower, List.mem_map] at hc
      obtain ⟨d, _, e⟩ := hc
      rw [← e]
      exact (unicodeToLower_props tbl ht d).1

/-! ## Content classifier -/

theorem ToLower_ascii (tbl : Char → Char) (s : GoString)
    (h : ∀ c ∈ s, c.toNat ≤ 127) : ToLower tbl s = ToLower id s := by
  unfold ToLower
  apply List.map_congr_left
  intro c hc
  unfold unicodeToLower
  rw [if_pos (h c hc), if_pos (h c hc)]

/-- On an ASCII string the result of `normalizeContentType` does not depend on the
Unicode table. -/
theorem normalizeContentType_ascii (tbl : Char → Char) (s : GoString)
    (h : ∀ c ∈ s, c.toNat ≤ 127) :
    normalizeContentType tbl s = normalizeContentType id s := by
  unfold normalizeContentType
  by_cases hs : s = []
  · rw [if_pos hs, if_pos hs]
  · rw [if_neg hs, if_neg hs, Split_headD]
    exact ToLower_ascii tbl _ (fun c hc => h c ((List.takeWhile_sublist _).subset hc))

/-- C8: `normalizeContentType` returns `application/octet-stream` for the empty string;
for a non-empty string it returns the lower-cased text before the first `;` (all of the
string when it has none); the result never holds `;` or an upper-case ASCII letter; and
`TEXT/CSS; charset=utf-8` is mapped to `text/css`. -/
theorem normalizeContentType_spec (tbl : Char → Char) (ht : LowerTableOK tbl) :
    normalizeContentType tbl [] = "application/octet-stream".toList ∧
    (∀ s : GoString, s ≠ [] →
      normalizeContentType tbl s = ToLower tbl (s.takeWhile (fun c => c != ';'))) ∧
    (∀ s : GoString, s ≠ [] → ';' ∉ s → normalizeContentType tbl s = ToLower tbl s) ∧
    (∀ (s : GoString) (c : Char), c ∈ normalizeContentType tbl s →
      c ≠ ';' ∧ ¬ (65 ≤ c.toNat ∧ c.toNat ≤ 90)) ∧
    normalizeContentType tbl "TEXT/CSS; charset=utf-8".toList = "text/css".toList := by
  refine ⟨rfl, ?_, ?_, normalizeContentType_chars tbl ht, ?_⟩
  · intro s hs
    rw [normalizeContentType, if_neg hs, Split_headD]
  · intro s hs hns
    rw [normalizeContentType, if_neg hs, Split_headD, takeWhile_ne_of_not_mem ';' s hns]
  · rw [normalizeContentType_ascii tbl _ (by decide)]
    decide

theorem lowerTableIdempotent_id : LowerTableIdempotent id :=
  fun _ _ _ => rfl

theorem lowerTableOK_id : LowerTableOK id := by
  intro c hc
  refine ⟨?_, ?_⟩
  · intro e
    simp only [id] at e
    rw [e] at hc
    revert hc
    decide
  · simp only [id]
    omega

/-- Witness of C8 (the table that leaves every non-ASCII code point alone). -/
theorem normalizeContentType_spec_witness :
    LowerTableOK id ∧
    normalizeContentType id [] = "application/octet-stream".toList ∧
    (∀ s : GoString, s ≠ [] →
      normalizeContentType id s = ToLower id (s.takeWhile (fun c => c != ';'))) ∧
    (∀ s : GoString, s ≠ [] → ';' ∉ s → normalizeContentType id s = ToLower id s) ∧
    (∀ (s : GoString) (c : Char), c ∈ normalizeContentType id s →
      c ≠ ';' ∧ ¬ (65 ≤ c.toNat ∧ c.toNat ≤ 90)) ∧
    normalizeContentType id "TEXT/CSS; charset=utf-8".toList = "text/css".toList :=
  ⟨lowerTableOK_id, normalizeContentType_spec id lowerTableOK_id⟩

/-- C7, refuted as stated: the content type `;` is normalized to the empty string, and
the empty string is normalized to `application/octet-stream`. -/
theorem normalizeContentType_not_idempotent :
    normalizeContentType id ";".toList = [] ∧
    normalizeContentType id (normalizeContentType id ";".toList) =
      "application/octet-stream".toList ∧
    normalizeContentType id (normalizeContentType id ";".toList) ≠
      normalizeContentType id ";".toList := by
  decide

/-- C7, amended: for every string that does not begin with `;`, normalizing the
normalized content type returns it unchanged. -/
theorem normalizeContentType_idempotent (tbl : Char → Char) (ht : LowerTableOK tbl)
    (hi : LowerTableIdempotent tbl) (s : GoString) (hs : s.head? ≠ some ';') :
    normalizeContentType tbl (normalizeContentType tbl s) = normalizeContentType tbl s := by
  have hno : ';' ∉ normalizeContentType tbl s := fun hm =>
    (normalizeContentType_chars tbl ht s ';' hm).1 rfl
  have hne : normalizeContentType tbl s ≠ [] := by
    unfold normalizeContentType
    by_cases h0 : s = []
    · rw [if_pos h0]; decide
    · rw [if_neg h0, Split_headD]
      cases s with
      | nil => exact absurd rfl h0
      | cons c rest =>
        have hc : c ≠ ';' := fun e => hs (by simp [e])
        simp [ToLower, List.takeWhile_cons, hc]
  have e1 : normalizeContentType tbl (normalizeContentType tbl s) =
      ToLower tbl (normalizeContentType tbl s) := by
    rw [normalizeContentType, if_neg hne, Split_headD,
      takeWhile_ne_of_not_mem ';' _ hno]
  rw [e1]
  by_cases h0 : s = []
  · subst h0
    have : normalizeContentType tbl [] = "application/octet-stream".toList := rfl
    rw [this, ToLower_ascii tbl _ (by decide)]
    decide
  · have e2 : normalizeContentType tbl s =
        ToLower tbl (s.takeWhile (fun c => c != ';')) := by
      rw [normalizeContentType, if_neg h0, Split_headD]
    rw [e2]
    exact ToLower_idem tbl ht hi _

/-- Witness of the amended C7, at `TEXT/CSS; charset=utf-8`. -/
theorem normalizeContentType_idempotent_witness :
    LowerTableOK id ∧ LowerTableIdempotent id ∧
    "TEXT/CSS; charset=utf-8".toList.head? ≠ some ';' ∧
    normalizeContentType id (normalizeContentType id "TEXT/CSS; charset=utf-8".toList) =
      normalizeContentType id "TEXT/CSS; charset=utf-8".toList :=
  ⟨lowerTableOK_id, lowerTableIdempotent_id, by decide,
    normalizeContentType_idempotent id lowerTableOK_id lowerTableIdempotent_id _ (by decide)⟩

/-! ## Filename sanitizer -/

theorem isSafeChar_of_isLowerHex (c : Char) (h : isLowerHex c = true) :
    isSafeChar c = true := by
  simp only [isLowerHex, isSafeChar, Bool.or_eq_true, Bool.and_eq_true, decide_eq_true_eq]
    at h ⊢
  omega

/-- The identifier `randomID` cuts from a UUID string: 8 lower-case hexadecimal digits. -/
theorem randomID_hex (uuid : Nat → GoString) (n : Nat) (h : IsUUIDString (uuid n)) :
    (randomID uuid n).1.length = 8 ∧ ∀ c ∈ (randomID uuid n).1, isLowerHex c = true := by
  obtain ⟨hlen, hch⟩ := h
  constructor
  · simp [randomID, hlen]
  · intro c hc
    simp only [randomID] at hc
    obtain ⟨i, hi, e⟩ := List.mem_iff_getElem.mp hc
    simp only [List.length_take, hlen] at hi
    have hi8 : i < 8 := by omega
    have hiu : i < (uuid n).length := by omega
    have := hch i (by omega)
    rw [if_neg (by omega), List.getD_eq_getElem _ _ hiu] at this
    rw [← e, List.getElem_take]
    exact this

theorem replaceUnsafe_safe (name : GoString) : ∀ c ∈ replaceUnsafe name, isSafeChar c = true := by
  intro c hc
  simp only [replaceUnsafe, List.mem_map] at hc
  obtain ⟨d, _, e⟩ := hc
  by_cases hd : isSafeChar d = true
  · rw [if_pos hd] at e; rw [← e]; exact hd
  · rw [if_neg hd] at e; rw [← e]; decide

/-- C6: for every input string, and every identifier cut from a well-formed UUID
string, `sanitizeFilename` returns a non-empty string of characters in `[A-Za-z0-9._-]`
that is neither `.` nor `..`. -/
theorem sanitizeFilename_safe (uuid : Nat → GoString) (n : Nat) (name : GoString)
    (h : IsUUIDString (uuid n)) :
    (sanitizeFilename uuid n name).1 ≠ [] ∧
    (∀ c ∈ (sanitizeFilename uuid n name).1, isSafeChar c = true) ∧
    (sanitizeFilename uuid n name).1 ≠ ".".toList ∧
    (sanitizeFilename uuid n name).1 ≠ "..".toList := by
  obtain ⟨hlen, hhex⟩ := randomID_hex uuid n h
  unfold sanitizeFilename
  simp only
  split
  · refine ⟨by simp, ?_, ?_, ?_⟩
    · intro c hc
      rcases List.mem_append.mp hc with h1 | h2
      · have hr : ∀ d ∈ "resource_".toList, isSafeChar d = true := by decide
        exact hr c h1
      · exact isSafeChar_of_isLowerHex c (hhex c h2)
    · intro e
      have := congrArg List.length e
      simp [hlen] at this
    · intro e
      have := congrArg List.length e
      simp [hlen] at this
  · rename_i hcond
    simp only [not_or] at hcond
    exact ⟨hcond.1, replaceUnsafe_safe _, hcond.2.1, hcond.2.2⟩

theorem sampleUUID_ok : IsUUIDString sampleUUID := by
  unfold IsUUIDString
  exact ⟨by decide, by decide⟩

/-- Witness of C6: the name `..` with a sample UUID. -/
theorem sanitizeFilename_safe_witness :
    IsUUIDString ((fun _ => sampleUUID) 0) ∧
    (sanitizeFilename (fun _ => sampleUUID) 0 "..".toList).1 ≠ [] ∧
    (∀ c ∈ (sanitizeFilename (fun _ => sampleUUID) 0 "..".toList).1, isSafeChar c = true) ∧
    (sanitizeFilename (fun _ => sampleUUID) 0 "..".toList).1 ≠ ".".toList ∧
    (sanitizeFilename (fun _ => sampleUUID) 0 "..".toList).1 ≠ "..".toList :=
  ⟨sampleUUID_ok, sanitizeFilename_safe (fun _ => sampleUUID) 0 "..".toList sampleUUID_ok⟩

/-! ## Decoder -/

/-- A reader made with an empty boundary never lets the part loop end. -/
theorem parseLoop_empty_boundary (env : Env) (fuel : Nat) (r : Reader) (p : MHTMLParser)
    (n : Nat) (hb : r.boundary = []) : parseLoop env fuel r p n = none := by
  induction fuel with
  | zero => rfl
  | succ k ih =>
    have e : r.NextPart = (NextPartResult.err, r) := by
      unfold Reader.NextPart; rw [if_pos hb]
    unfold parseLoop
    rw [e]
    exact ih

theorem mapGet_absent (params : List (GoString × GoString)) (key : GoString)
    (h : params.lookup key = none) : mapGet params key = [] := by
  simp [mapGet, h]

/-- C9, what the code does: when the media type of the top-level header is well formed
and has no boundary parameter, `Parse` returns nothing, whatever the number of calls of
`NextPart` allowed: it returns no error and no success. -/
theorem Parse_no_boundary_never_returns (env : Env) (p : MHTMLParser) (n : Nat)
    (file : MHTMLFile) (ct mt : GoString) (params : List (GoString × GoString))
    (hopen : env.openFile p.InputFile = some file) (hhead : file.header = some ct)
    (hmt : env.parseMediaType ct = some (mt, params))
    (hb : params.lookup "boundary".toList = none) (fuel : Nat) :
    Parse env fuel p n = none := by
  unfold Parse
  rw [hopen]
  simp only [hhead, hmt]
  rw [parseLoop_empty_boundary env fuel _ _ n (mapGet_absent _ _ hb)]

/-- Witness of `Parse_no_boundary_never_returns`: the header
`Content-Type: multipart/related`. -/
theorem Parse_no_boundary_never_returns_witness :
    (sampleEnv noBoundaryFile []).openFile (New [] false).InputFile = some noBoundaryFile ∧
    noBoundaryFile.header = some "multipart/related".toList ∧
    (sampleEnv noBoundaryFile []).parseMediaType "multipart/related".toList =
      some ("multipart/related".toList, []) ∧
    ([] : List (GoString × GoString)).lookup "boundary".toList = none ∧
    Parse (sampleEnv noBoundaryFile []) 1000 (New [] false) 0 = none :=
  ⟨rfl, rfl, rfl, rfl,
    Parse_no_boundary_never_returns (sampleEnv noBoundaryFile []) (New [] false) 0
      noBoundaryFile "multipart/related".toList "multipart/related".toList [] rfl rfl rfl rfl
      1000⟩

theorem lastHTMLBody_cons (tbl : Char → Char) (q : ReadablePart) (qs : List ReadablePart)
    (d : Bytes) :
    (lastHTMLBody tbl (q :: qs)).getD d =
      (lastHTMLBody tbl qs).getD (if isHTMLPart tbl q then q.data else d) := by
  unfold lastHTMLBody
  by_cases h : isHTMLPart tbl q = true
  · rw [List.filter_cons_of_pos h]
    simp only [h, if_true]
    cases hf : qs.filter (isHTMLPart tbl) with
    | nil => simp
    | cons a as =>
      rw [List.getLast?_cons_cons]
      obtain ⟨x, hx⟩ : ∃ x, (a :: as).getLast? = some x :=
        Option.isSome_iff_exists.mp (by simp)
      simp [hx]
  · rw [List.filter_cons_of_neg h]
    simp [h]

/-- The loop body on a readable part: one resource is appended, which records the
part, and the body is stored when the part passes the test of line 99. -/
theorem parsePart_readable (env : Env) (q : ReadablePart) (p : MHTMLParser) (n : Nat) :
    ∃ res : Resource,
      (parsePart env q.toPart p n).1 =
        { p with
          HTMLContent := if isHTMLPart env.lowerTable q then q.data else p.HTMLContent,
          Resources := p.Resources ++ [res] } ∧
      Records env.lowerTable q res := by
  unfold parsePart
  simp only [ReadablePart.toPart]
  by_cases hh : isHTMLPart env.lowerTable q = true
  · have hh2 : HasPrefix (normalizeContentType env.lowerTable q.contentType)
        "text/html".toList = true := hh
    rw [if_pos hh2, if_pos hh]
    exact ⟨_, rfl, rfl, rfl, rfl, rfl⟩
  · have hh2 : ¬ HasPrefix (normalizeContentType env.lowerTable q.contentType)
        "text/html".toList = true := hh
    rw [if_neg hh2, if_neg hh]
    exact ⟨_, rfl, rfl, rfl, rfl, rfl⟩

/-- The part loop on a message of readable parts: with more fuel than parts it ends,
having appended one resource per part, in order, and having stored the body of the last
part that passes the test of line 99. -/
theorem parseLoop_readable (env : Env) (parts : List ReadablePart) :
    ∀ (fuel : Nat) (r : Reader) (p : MHTMLParser) (n : Nat),
      r.boundary ≠ [] → r.pending = readableEvents parts → parts.length < fuel →
      ∃ (L : List Resource) (n1 : Nat),
        parseLoop env fuel r p n =
          some ({ p with
                  HTMLContent := (lastHTMLBody env.lowerTable parts).getD p.HTMLContent,
                  Resources := p.Resources ++ L }, n1) ∧
        List.Forall₂ (Records env.lowerTable) parts L := by
  induction parts with
  | nil =>
    intro fuel r p n hb hp hf
    obtain ⟨k, rfl⟩ : ∃ k, fuel = k + 1 := ⟨fuel - 1, by simp at hf; omega⟩
    refine ⟨[], n, ?_, List.Forall₂.nil⟩
    have e : r.NextPart = (NextPartResult.eof, r) := by
      unfold Reader.NextPart; rw [if_neg hb, hp]; rfl
    unfold parseLoop
    rw [e]
    simp [lastHTMLBody]
  | cons q qs ih =>
    intro fuel r p n hb hp hf
    obtain ⟨k, rfl⟩ : ∃ k, fuel = k + 1 := ⟨fuel - 1, by simp at hf; omega⟩
    have hk : qs.length < k := by simp at hf; omega
    have e : r.NextPart =
        (NextPartResult.part q.toPart, { r with pending := readableEvents qs }) := by
      unfold Reader.NextPart; rw [if_neg hb, hp]; rfl
    obtain ⟨res, hres, hrec⟩ := parsePart_readable env q p n
    obtain ⟨L, n1, hL, hR⟩ := ih k { r with pending := readableEvents qs }
      (parsePart env q.toPart p n).1 (parsePart env q.toPart p n).2 hb rfl hk
    refine ⟨res :: L, n1, ?_, List.Forall₂.cons hrec hR⟩
    unfold parseLoop
    rw [e]
    simp only
    rw [hL, hres, lastHTMLBody_cons]
    simp

/-- The inline pass appends resources of origin `inline` whose size is the length of
their payload. -/
theorem inlineScriptsLoop_spec (env : Env) (elems : List ScriptElement) :
    ∀ (n : Nat) (results : List Resource),
      ∃ extra : List Resource,
        (inlineScriptsLoop env elems n results).1 = results ++ extra ∧
        ∀ r ∈ extra, r.Source = "inline".toList ∧ r.Size = (r.Data.length : Int) := by
  induction elems with
  | nil => intro n results; exact ⟨[], by simp [inlineScriptsLoop], by simp⟩
  | cons s rest ih =>
    intro n results
    unfold inlineScriptsLoop
    by_cases h1 : (!s.hasSrc) = true
    · rw [if_pos h1]
      by_cases h2 : TrimSpace s.text ≠ []
      · simp only [if_pos h2]
        obtain ⟨extra, he, hp⟩ := ih (randomID env.uuid n).2
          (results ++ [inlineResource (randomID env.uuid n).1 (toBytes (TrimSpace s.text))])
        refine ⟨inlineResource (randomID env.uuid n).1 (toBytes (TrimSpace s.text)) :: extra,
          ?_, ?_⟩
        · rw [he]; simp
        · intro r hr
          rcases List.mem_cons.mp hr with e | hm
          · rw [e]; exact ⟨rfl, rfl⟩
          · exact hp r hm
      · simp only [if_neg h2]
        exact ih n results
    · rw [if_neg h1]
      exact ih n results

theorem append_singleton_spec (P : Resource → Prop) (out results extra : List Resource)
    (res : Resource) (he : out = results ++ [res] ++ extra) (hres : P res)
    (hp : ∀ r ∈ extra, P r) :
    ∃ extra1 : List Resource, out = results ++ extra1 ∧ ∀ r ∈ extra1, P r := by
  refine ⟨res :: extra, by rw [he]; simp, ?_⟩
  intro r hr
  rcases List.mem_cons.mp hr with e | hm
  · rw [e]; exact hres
  · exact hp r hm

theorem downloadLoop_spec (env : Env) (urls : List GoString) :
    ∀ (k n : Nat) (results : List Resource),
      ∃ extra : List Resource,
        (downloadLoop env urls k n results).1 = results ++ extra ∧
        ∀ r ∈ extra, r.Source = "external".toList ∧ r.Size = (r.Data.length : Int) := by
  induction urls with
  | nil => intro k n results; exact ⟨[], by simp [downloadLoop], by simp⟩
  | cons url rest ih =>
    intro k n results
    unfold downloadLoop
    cases hg : env.httpGet k url with
    | failed => exact ih (k + 1) n results
    | response status body =>
      simp only
      by_cases hs : status ≠ 200
      · rw [if_pos hs]; exact ih (k + 1) n results
      · rw [if_neg hs]
        cases body with
        | none => exact ih (k + 1) n results
        | some data =>
          simp only
          obtain ⟨extra, he, hp⟩ := ih (k + 1) _ (results ++ [externalResource _ data])
          exact append_singleton_spec _ _ _ _ _ he ⟨rfl, rfl⟩ hp

/-- The script passes keep the HTML text and the resources collected so far, and append
resources of origin `inline` or `external` whose size is the length of their payload. -/
theorem parseScripts_spec (env : Env) (p : MHTMLParser) (n : Nat) :
    ∃ extra : List Resource,
      parseScripts env p n = { p with Resources := p.Resources ++ extra } ∧
      ∀ r ∈ extra, (r.Source = "inline".toList ∨ r.Source = "external".toList) ∧
        r.Size = (r.Data.length : Int) := by
  unfold parseScripts
  by_cases h : p.HTMLContent ≠ []
  · rw [if_pos h]
    simp only
    have hin : ∃ e1 : List Resource,
        (match (extractInlineScripts env p n).1 with
          | some scripts => { p with Resources := p.Resources ++ scripts }
          | none => p) = { p with Resources := p.Resources ++ e1 } ∧
        ∀ r ∈ e1, r.Source = "inline".toList ∧ r.Size = (r.Data.length : Int) := by
      unfold extractInlineScripts
      cases env.parseHTML p.HTMLContent with
      | none => exact ⟨[], by simp, by simp⟩
      | some elems =>
        obtain ⟨extra, he, hp⟩ := inlineScriptsLoop_spec env elems n []
        refine ⟨extra, ?_, hp⟩
        simp only [he, List.nil_append]
    obtain ⟨e1, he1, hp1⟩ := hin
    rw [he1]
    by_cases hf : p.FetchExternal = true
    · simp only [hf, if_true]
      obtain ⟨e2, he2, hp2⟩ := downloadLoop_spec env
        (env.scriptSrcURLs p.HTMLContent) 0 (extractInlineScripts env p n).2 []
      refine ⟨e1 ++ e2, ?_, ?_⟩
      · simp only [downloadExternalScripts, he2, List.nil_append, List.append_assoc]
      · intro r hr
        rcases List.mem_append.mp hr with h1 | h2
        · exact ⟨Or.inl (hp1 r h1).1, (hp1 r h1).2⟩
        · exact ⟨Or.inr (hp2 r h2).1, (hp2 r h2).2⟩
    · simp only [hf]
      refine ⟨e1, by simp, ?_⟩
      intro r hr
      exact ⟨Or.inl (hp1 r hr).1, (hp1 r hr).2⟩
  · rw [if_neg h]
    exact ⟨[], by simp, by simp⟩

/-- `Parse` on a file whose header gives a boundary and whose body is a sequence of
readable parts: with more fuel than parts it returns success; the resources are one
recording resource per part, in order, followed by script resources; the HTML text is
the body of the last part that passes the test of line 99. -/
theorem Parse_readable (env : Env) (p : MHTMLParser) (n : Nat) (file : MHTMLFile)
    (ct mt : GoString) (params : List (GoString × GoString)) (parts : List ReadablePart)
    (fuel : Nat)
    (hopen : env.openFile p.InputFile = some file) (hhead : file.header = some ct)
    (hmt : env.parseMediaType ct = some (mt, params))
    (hb : mapGet params "boundary".toList ≠ [])
    (hev : file.events = readableEvents parts) (hf : parts.length < fuel) :
    ∃ (pr : MHTMLParser) (L extra : List Resource),
      Parse env fuel p n = some (Except.ok pr) ∧
      pr.HTMLContent = (lastHTMLBody env.lowerTable parts).getD p.HTMLContent ∧
      pr.Resources = L ++ extra ∧
      List.Forall₂ (Records env.lowerTable) parts L ∧
      ∀ r ∈ extra, (r.Source = "inline".toList ∨ r.Source = "external".toList) ∧
        r.Size = (r.Data.length : Int) := by
  obtain ⟨L, n1, hL, hR⟩ := parseLoop_readable env parts fuel
    (NewReader file (mapGet params "boundary".toList)) { p with Resources := [] } n
    hb hev hf
  obtain ⟨extra, he, hp⟩ := parseScripts_spec env
    { p with HTMLContent := (lastHTMLBody env.lowerTable parts).getD p.HTMLContent,
             Resources := [] ++ L } n1
  refine ⟨parseScripts env
    { p with HTMLContent := (lastHTMLBody env.lowerTable parts).getD p.HTMLContent,
             Resources := [] ++ L } n1, L, extra, ?_, ?_, ?_, hR, hp⟩
  · unfold Parse
    rw [hopen]
    simp only [hhead, hmt]
    rw [hL]
  · rw [he]
  · rw [he]; simp

theorem forall₂_mem_left {α β : Type} (R : α → β → Prop) (l1 : List α) (l2 : List β)
    (h : List.Forall₂ R l1 l2) : ∀ a ∈ l1, ∃ b ∈ l2, R a b := by
  induction h with
  | nil => intro a ha; simp at ha
  | cons hab _ ih =>
    intro a ha
    rcases List.mem_cons.mp ha with e | hm
    · subst e; exact ⟨_, List.mem_cons_self _ _, hab⟩
    · obtain ⟨b, hb, hr⟩ := ih a hm
      exact ⟨b, List.mem_cons_of_mem _ hb, hr⟩

theorem forall₂_mem_right {α β : Type} (R : α → β → Prop) (l1 : List α) (l2 : List β)
    (h : List.Forall₂ R l1 l2) : ∀ b ∈ l2, ∃ a ∈ l1, R a b := by
  induction h with
  | nil => intro b hb; simp at hb
  | cons hab _ ih =>
    intro b hb
    rcases List.mem_cons.mp hb with e | hm
    · subst e; exact ⟨_, List.mem_cons_self _ _, hab⟩
    · obtain ⟨a, ha, hr⟩ := ih b hm
      exact ⟨a, List.mem_cons_of_mem _ ha, hr⟩

theorem lastHTMLBody_isSome (tbl : Char → Char) (parts : List ReadablePart)
    (h : ∃ q ∈ parts, isHTMLPart tbl q = true) :
    ∃ q ∈ parts, isHTMLPart tbl q = true ∧ lastHTMLBody tbl parts = some q.data := by
  obtain ⟨q0, hq0, hh0⟩ := h
  have hne : parts.filter (isHTMLPart tbl) ≠ [] := by
    intro e
    have : q0 ∈ parts.filter (isHTMLPart tbl) := List.mem_filter.mpr ⟨hq0, hh0⟩
    rw [e] at this
    simp at this
  have hl : (parts.filter (isHTMLPart tbl)).getLast? =
      some ((parts.filter (isHTMLPart tbl)).getLast hne) := List.getLast?_eq_getLast _ hne
  have hm := List.getLast_mem hne
  obtain ⟨h1, h2⟩ := List.mem_filter.mp hm
  refine ⟨_, h1, h2, ?_⟩
  unfold lastHTMLBody
  rw [hl]
  rfl

/-- C2, refuted as stated: of two `text/html` parts with the bodies `A` and `B`, the
first has the body `A`, and `Parse` stores `B`. -/
theorem Parse_html_not_first :
    firstHTMLBody id twoHTMLParts = some [65] ∧
    (Parse (sampleEnv twoHTMLFile sepParams) 3 (New [] false) 0).map
      (fun r => r.toOption.map GetHTMLContent) = some (some [66]) := by
  decide

/-- C2, amended: for every sequence of readable parts that holds a part whose normalized
content type begins with `text/html`, `Parse` returns success, the HTML text it stores
is the body of the last such part, and every such part is recorded by a resource. -/
theorem Parse_html_is_last (env : Env) (p : MHTMLParser) (n : Nat) (file : MHTMLFile)
    (ct mt : GoString) (params : List (GoString × GoString)) (parts : List ReadablePart)
    (fuel : Nat)
    (hopen : env.openFile p.InputFile = some file) (hhead : file.header = some ct)
    (hmt : env.parseMediaType ct = some (mt, params))
    (hb : mapGet params "boundary".toList ≠ [])
    (hev : file.events = readableEvents parts) (hf : parts.length < fuel)
    (hhtml : ∃ q ∈ parts, isHTMLPart env.lowerTable q = true) :
    ∃ pr : MHTMLParser,
      Parse env fuel p n = some (Except.ok pr) ∧
      lastHTMLBody env.lowerTable parts = some (GetHTMLContent pr) ∧
      ∀ q ∈ parts, isHTMLPart env.lowerTable q = true →
        ∃ r ∈ pr.Resources, Records env.lowerTable q r := by
  obtain ⟨pr, L, extra, hP, hH, hRes, hR, _⟩ :=
    Parse_readable env p n file ct mt params parts fuel hopen hhead hmt hb hev hf
  obtain ⟨q, _, _, hq⟩ := lastHTMLBody_isSome env.lowerTable parts hhtml
  refine ⟨pr, hP, ?_, ?_⟩
  · rw [GetHTMLContent, hH, hq]; rfl
  · intro q1 hq1 _
    obtain ⟨r, hr, hrec⟩ := forall₂_mem_left _ _ _ hR q1 hq1
    exact ⟨r, by rw [hRes]; exact List.mem_append_left _ hr, hrec⟩

/-- Witness of the amended C2: the message of two `text/html` parts. -/
theorem Parse_html_is_last_witness :
    ∃ pr : MHTMLParser,
      Parse (sampleEnv twoHTMLFile sepParams) 3 (New [] false) 0 = some (Except.ok pr) ∧
      lastHTMLBody id twoHTMLParts = some (GetHTMLContent pr) ∧
      ∀ q ∈ twoHTMLParts, isHTMLPart id q = true →
        ∃ r ∈ pr.Resources, Records id q r :=
  Parse_html_is_last (sampleEnv twoHTMLFile sepParams) (New [] false) 0 twoHTMLFile
    "multipart/related; boundary=sep".toList "multipart/related; boundary=sep".toList
    sepParams twoHTMLParts 3 rfl rfl rfl (by decide) rfl (by decide)
    ⟨⟨"text/html".toList, [], [65]⟩, by decide, by decide⟩

/-- C10: for every sequence of `N` readable parts, `Parse` returns success with exactly
`N` resources of origin `embedded`; they are the first `N` resources, the `i`-th
recording the `i`-th part (its normalized content type and its body); every later
resource has another origin, and every resource has `Size = len(Data)`. -/
theorem Parse_embedded_resources (env : Env) (p : MHTMLParser) (n : Nat) (file : MHTMLFile)
    (ct mt : GoString) (params : List (GoString × GoString)) (parts : List ReadablePart)
    (fuel : Nat)
    (hopen : env.openFile p.InputFile = some file) (hhead : file.header = some ct)
    (hmt : env.parseMediaType ct = some (mt, params))
    (hb : mapGet params "boundary".toList ≠ [])
    (hev : file.events = readableEvents parts) (hf : parts.length < fuel) :
    ∃ pr : MHTMLParser,
      Parse env fuel p n = some (Except.ok pr) ∧
      (pr.Resources.filter (fun r => r.Source == "embedded".toList)).length = parts.length ∧
      List.Forall₂ (Records env.lowerTable) parts (pr.Resources.take parts.length) ∧
      (∀ r ∈ pr.Resources.drop parts.length, r.Source ≠ "embedded".toList) ∧
      ∀ r ∈ pr.Resources, r.Size = (r.Data.length : Int) := by
  obtain ⟨pr, L, extra, hP, _, hRes, hR, hE⟩ :=
    Parse_readable env p n file ct mt params parts fuel hopen hhead hmt hb hev hf
  have hlen : L.length = parts.length := hR.length_eq.symm
  have hLemb : ∀ r ∈ L, r.Source = "embedded".toList ∧ r.Size = (r.Data.length : Int) := by
    intro r hr
    obtain ⟨q, _, _, h2, h3, h4⟩ := forall₂_mem_right _ _ _ hR r hr
    exact ⟨h4, by rw [h3, h2]⟩
  have hEne : ∀ r ∈ extra, r.Source ≠ "embedded".toList := by
    intro r hr
    rcases (hE r hr).1 with h | h <;> rw [h] <;> decide
  refine ⟨pr, hP, ?_, ?_, ?_, ?_⟩
  · rw [hRes, List.filter_append]
    have h1 : L.filter (fun r => r.Source == "embedded".toList) = L :=
      List.filter_eq_self.mpr (fun r hr => by simp [(hLemb r hr).1])
    have h2 : extra.filter (fun r => r.Source == "embedded".toList) = [] :=
      List.filter_eq_nil_iff.mpr (fun r hr => by
        have := hEne r hr
        simpa using this)
    rw [h1, h2]; simp [hlen]
  · rw [hRes, ← hlen, List.take_left]; exact hR
  · rw [hRes, ← hlen, List.drop_left]; exact hEne
  · intro r hr
    rw [hRes] at hr
    rcases List.mem_append.mp hr with h | h
    · exact (hLemb r h).2
    · exact (hE r h).2

/-- Witness of C10: the message of three parts. -/
theorem Parse_embedded_resources_witness :
    ∃ pr : MHTMLParser,
      Parse (sampleEnv threePartFile sepParams) 4 (New [] true) 0 = some (Except.ok pr) ∧
      (pr.Resources.filter (fun r => r.Source == "embedded".toList)).length =
        threeParts.length ∧
      List.Forall₂ (Records id) threeParts (pr.Resources.take threeParts.length) ∧
      (∀ r ∈ pr.Resources.drop threeParts.length, r.Source ≠ "embedded".toList) ∧
      ∀ r ∈ pr.Resources, r.Size = (r.Data.length : Int) :=
  Parse_embedded_resources (sampleEnv threePartFile sepParams) (New [] true) 0 threePartFile
    "multipart/related; boundary=sep".toList "multipart/related; boundary=sep".toList
    sepParams threeParts 4 rfl rfl rfl (by decide) rfl (by decide)

/-! ## Decimal formatting -/

/-- The character of a decimal digit denotes the digit. -/
theorem digitChar_toNat (d : Nat) (h : d < 10) : (Nat.digitChar d).toNat - 48 = d := by
  interval_cases d <;> rfl

theorem toDigitsCore_value (fuel : Nat) :
    ∀ (n : Nat) (ds : List Char), n < fuel →
      (Nat.toDigitsCore 10 fuel n ds).foldl (fun a c => 10 * a + (c.toNat - 48)) 0 =
        ds.foldl (fun a c => 10 * a + (c.toNat - 48)) n := by
  induction fuel with
  | zero => intro n ds h; omega
  | succ k ih =>
    intro n ds h
    unfold Nat.toDigitsCore
    simp only
    by_cases h0 : n / 10 = 0
    · rw [if_pos h0]
      have hn : n % 10 = n := by omega
      simp only [List.foldl_cons, Nat.mul_zero, Nat.zero_add]
      rw [digitChar_toNat _ (Nat.mod_lt _ (by decide)), hn]
    · rw [if_neg h0, ih (n / 10) _ (by omega)]
      simp only [List.foldl_cons]
      rw [digitChar_toNat _ (Nat.mod_lt _ (by decide))]
      have : 10 * (n / 10) + n % 10 = n := by omega
      rw [this]

theorem formatDecimal_injective (a b : Nat) (h : formatDecimal a = formatDecimal b) :
    a = b := by
  have ha := toDigitsCore_value (a + 1) a [] (by omega)
  have hb := toDigitsCore_value (b + 1) b [] (by omega)
  unfold formatDecimal Nat.toDigits at h
  rw [h, hb] at ha
  simpa using ha.symm

theorem suffixedPath_injective (base ext : GoString) (a b : Nat)
    (h : suffixedPath base a ext = suffixedPath base b ext) : a = b := by
  unfold suffixedPath at h
  have h1 := List.append_cancel_left (List.append_cancel_right h)
  exact formatDecimal_injective a b (List.cons.inj h1).2

/-! ## Paths -/

theorem splitAux_append_sep (sep : Char) (s t : GoString) :
    ∀ cur : GoString,
      splitAux sep (s ++ sep :: t) cur = splitAux sep s cur ++ splitAux sep t [] := by
  induction s with
  | nil => intro cur; simp [splitAux]
  | cons c rest ih =>
    intro cur
    by_cases h : c = sep
    · have e1 : splitAux sep (c :: rest ++ sep :: t) cur =
          cur.reverse :: splitAux sep (rest ++ sep :: t) [] := by
        rw [List.cons_append, splitAux, if_pos h]
      have e2 : splitAux sep (c :: rest) cur = cur.reverse :: splitAux sep rest [] := by
        rw [splitAux, if_pos h]
      rw [e1, e2, ih []]; rfl
    · have e1 : splitAux sep (c :: rest ++ sep :: t) cur =
          splitAux sep (rest ++ sep :: t) (c :: cur) := by
        rw [List.cons_append, splitAux, if_neg h]
      have e2 : splitAux sep (c :: rest) cur = splitAux sep rest (c :: cur) := by
        rw [splitAux, if_neg h]
      rw [e1, e2]; exact ih (c :: cur)

theorem splitAux_no_sep (sep : Char) (t : GoString) (h : sep ∉ t) :
    ∀ cur : GoString, splitAux sep t cur = [cur.reverse ++ t] := by
  induction t with
  | nil => intro cur; simp [splitAux]
  | cons c rest ih =>
    intro cur
    have hc : c ≠ sep := fun e => h (by simp [e])
    have hr : sep ∉ rest := fun e => h (by simp [e])
    simp only [splitAux, if_neg hc]
    rw [ih hr]; simp

/-- Splitting `dir/name`, for a name without separator, gives the pieces of `dir`
followed by the name. -/
theorem Split_dir_name (dir name : GoString) (h : PathSeparator ∉ name) :
    Split (dir ++ PathSeparator :: name) PathSeparator =
      Split dir PathSeparator ++ [name] := by
  unfold Split
  rw [splitAux_append_sep, splitAux_no_sep _ _ h]
  simp

/-- Joining path elements that end with a plain name gives a path that ends with the
name, after a separator if anything precedes it. -/
theorem intercalate_append_last (l : List GoString) (name : GoString) :
    List.intercalate [PathSeparator] (l ++ [name]) = name ∨
    ∃ pre, List.intercalate [PathSeparator] (l ++ [name]) = pre ++ PathSeparator :: name := by
  induction l with
  | nil => left; simp [List.intercalate]
  | cons a rest ih =>
    right
    have hstep : List.intercalate [PathSeparator] (a :: (rest ++ [name])) =
        a ++ PathSeparator :: List.intercalate [PathSeparator] (rest ++ [name]) := by
      cases hx : rest ++ [name] with
      | nil => simp at hx
      | cons b bs => simp [List.intercalate, List.intersperse]
    rw [List.cons_append, hstep]
    rcases ih with h | ⟨pre, h⟩
    · exact ⟨a, by rw [h]⟩
    · exact ⟨a ++ PathSeparator :: pre, by rw [h]; simp⟩

theorem extAux_append_sep (a b : GoString) :
    ∀ acc : GoString, extAux (a ++ PathSeparator :: b) acc = extAux a acc := by
  induction a with
  | nil => intro acc; simp [extAux, IsPathSeparator]
  | cons c rest ih =>
    intro acc
    simp only [List.cons_append, extAux]
    by_cases h1 : IsPathSeparator c = true
    · rw [if_pos h1, if_pos h1]
    · rw [if_neg h1, if_neg h1]
      by_cases h2 : c = '.'
      · rw [if_pos h2, if_pos h2]
      · rw [if_neg h2, if_neg h2]; exact ih _

/-- The extension of a path is the extension of its last element. -/
theorem Ext_append_sep (pre name : GoString) :
    Ext (pre ++ PathSeparator :: name) = Ext name := by
  unfold Ext
  rw [List.reverse_append, List.reverse_cons, List.append_assoc]
  exact extAux_append_sep _ _ _

theorem cleanStep_plain (rooted : Bool) (stack : List GoString) (name : GoString)
    (h : IsPlainName name) : cleanStep rooted stack name = name :: stack := by
  unfold cleanStep
  rw [if_neg (by intro hc; rcases hc with e | e; exact h.1 e; exact h.2.2.1 e),
    if_neg h.2.2.2]

/-- Cleaning a list of pieces that ends with a plain name gives a path that is the name
or ends with a separator and the name. -/
theorem Clean_pieces_last (path : GoString) (pieces : List GoString) (name : GoString)
    (hp : path ≠ []) (hs : Split path PathSeparator = pieces ++ [name])
    (h : IsPlainName name) :
    Clean path = name ∨ ∃ pre, Clean path = pre ++ PathSeparator :: name := by
  unfold Clean
  rw [if_neg hp]
  simp only
  rw [hs, List.foldl_append, List.foldl_cons, List.foldl_nil, cleanStep_plain _ _ _ h,
    List.reverse_cons]
  rcases intercalate_append_last
    ((List.foldl (cleanStep (path.head? == some PathSeparator)) [] pieces).reverse) name
    with e | ⟨pre, e⟩
  · rw [e]
    by_cases hr : (path.head? == some PathSeparator) = true
    · rw [if_pos hr]; exact Or.inr ⟨[], rfl⟩
    · rw [if_neg hr, if_neg h.1]; exact Or.inl rfl
  · rw [e]
    by_cases hr : (path.head? == some PathSeparator) = true
    · rw [if_pos hr]; exact Or.inr ⟨PathSeparator :: pre, rfl⟩
    · rw [if_neg hr, if_neg (by simp)]; exact Or.inr ⟨pre, rfl⟩

/-- The candidate path of a plain file name is the name, or ends with a separator and
the name; its extension is the extension of the file name. -/
theorem Join_plain (dir name : GoString) (h : IsPlainName name) :
    (Join dir name = name ∨ ∃ pre, Join dir name = pre ++ PathSeparator :: name) ∧
    Ext (Join dir name) = Ext name := by
  have hj : Join dir name = name ∨ ∃ pre, Join dir name = pre ++ PathSeparator :: name := by
    unfold Join
    by_cases hd : dir ≠ []
    · rw [if_pos hd]
      exact Clean_pieces_last _ (Split dir PathSeparator) name (by simp)
        (Split_dir_name dir name h.2.1) h
    · rw [if_neg hd, if_pos h.1]
      exact Clean_pieces_last name [] name h.1
        (by unfold Split; rw [splitAux_no_sep _ _ h.2.1]; simp) h
  refine ⟨hj, ?_⟩
  rcases hj with e | ⟨pre, e⟩
  · rw [e]
  · rw [e]; exact Ext_append_sep pre name

/-! ## Decoder: file names -/

/-- C11, refuted as stated: a part of kind `text/html5`, which is not `text/html`, that
declares the file name `a.bin`: `Parse` stores its body as the HTML text and names its
resource `page_<id>.html`. -/
theorem Parse_html5_captured :
    normalizeContentType id html5Part.contentType = "text/html5".toList ∧
    normalizeContentType id html5Part.contentType ≠ "text/html".toList ∧
    (sanitizeFilename (fun _ => sampleUUID) 0 html5Part.fileName).1 = "a.bin".toList ∧
    (Parse (sampleEnv html5File sepParams) 2 (New [] false) 0).map
      (fun r => r.toOption.map
        (fun p => (GetHTMLContent p, p.Resources.map (fun x => (x.Type_, x.Filename))))) =
      some (some ([65], [("text/html5".toList, "page_3f2a9c01.html".toList)])) := by
  decide

/-- C11, amended: the part loop of `Parse` applies `parsePart` to every part it reads;
when the normalized kind of a readable part begins with `text/html`, the body becomes
the HTML text and the resource is named `page_<id>.html`; when it does not, the HTML
text is unchanged and the resource keeps the sanitized declared file name, or
`resource_<id><extensionFor(kind)>` when the part declares none. -/
theorem parsePart_html_kind (env : Env) (q : ReadablePart) (p : MHTMLParser) (n : Nat) :
    (∀ (fuel : Nat) (r : Reader) (rest : List PartEvent), r.boundary ≠ [] →
      r.pending = PartEvent.part q.toPart :: rest →
      parseLoop env (fuel + 1) r p n =
        parseLoop env fuel { r with pending := rest }
          (parsePart env q.toPart p n).1 (parsePart env q.toPart p n).2) ∧
    (HasPrefix (normalizeContentType env.lowerTable q.contentType) "text/html".toList = true →
      (parsePart env q.toPart p n).1.HTMLContent = q.data ∧
      ∃ res : Resource,
        (parsePart env q.toPart p n).1.Resources = p.Resources ++ [res] ∧
        Records env.lowerTable q res ∧
        res.Filename = "page_".toList ++
          (randomID env.uuid (declaredName env q n).2).1 ++ ".html".toList) ∧
    (HasPrefix (normalizeContentType env.lowerTable q.contentType) "text/html".toList = false →
      (parsePart env q.toPart p n).1.HTMLContent = p.HTMLContent ∧
      ∃ res : Resource,
        (parsePart env q.toPart p n).1.Resources = p.Resources ++ [res] ∧
        Records env.lowerTable q res ∧
        res.Filename = (declaredName env q n).1) ∧
    (q.fileName ≠ [] →
      (declaredName env q n).1 = (sanitizeFilename env.uuid n q.fileName).1) ∧
    (q.fileName = [] →
      (declaredName env q n).1 = "resource_".toList ++ (randomID env.uuid n).1 ++
        extensionFor (normalizeContentType env.lowerTable q.contentType)) := by
  refine ⟨?_, ?_, ?_, ?_, ?_⟩
  · intro fuel r rest hb hp
    have e : r.NextPart = (NextPartResult.part q.toPart, { r with pending := rest }) := by
      unfold Reader.NextPart; rw [if_neg hb, hp]
    rw [parseLoop, e]
  · intro hh
    unfold parsePart
    simp only [ReadablePart.toPart]
    rw [if_pos hh]
    exact ⟨rfl, _, rfl, ⟨rfl, rfl, rfl, rfl⟩, rfl⟩
  · intro hh
    have hh2 : ¬ HasPrefix (normalizeContentType env.lowerTable q.contentType)
        "text/html".toList = true := by rw [hh]; simp
    unfold parsePart
    simp only [ReadablePart.toPart]
    rw [if_neg hh2]
    exact ⟨rfl, _, rfl, ⟨rfl, rfl, rfl, rfl⟩, rfl⟩
  · intro h
    unfold declaredName
    rw [if_neg h]
  · intro h
    unfold declaredName
    rw [if_pos h]

/-- Witness of the amended C11: the part of kind `text/html5`. -/
theorem parsePart_html_kind_witness :
    HasPrefix (normalizeContentType (sampleEnv html5File sepParams).lowerTable
      html5Part.contentType) "text/html".toList = true ∧
    html5Part.fileName ≠ [] ∧
    (parsePart (sampleEnv html5File sepParams) html5Part.toPart (New [] false) 0).1.HTMLContent
      = html5Part.data ∧
    ∃ res : Resource,
      (parsePart (sampleEnv html5File sepParams) html5Part.toPart (New [] false) 0).1.Resources
        = (New [] false).Resources ++ [res] ∧
      Records (sampleEnv html5File sepParams).lowerTable html5Part res ∧
      res.Filename = "page_".toList ++
        (randomID (sampleEnv html5File sepParams).uuid
          (declaredName (sampleEnv html5File sepParams) html5Part 0).2).1 ++ ".html".toList :=
  ⟨by decide, by decide,
    (parsePart_html_kind (sampleEnv html5File sepParams) html5Part (New [] false) 0).2.1
      (by decide)⟩

/-! ## Script miner: inline scripts -/

theorem hasSuffix_js_random (pre : GoString) :
    HasSuffix (pre ++ ".js.random".toList) ".js".toList = false := by
  unfold HasSuffix List.isSuffixOf
  rw [List.reverse_append]
  rfl

/-- C12, what the code does: for a `script` element without `src` attribute whose
trimmed text is not empty, the inline pass appends a resource whose file name is
`inline_script_<id>.js.random`: it does not end with `.js`, and `.random` follows the
identifier and `.js`. -/
theorem inlineScript_filename (env : Env) (s : ScriptElement) (rest : List ScriptElement)
    (n : Nat) (results : List Resource)
    (hsrc : s.hasSrc = false) (htext : TrimSpace s.text ≠ []) :
    inlineScriptsLoop env (s :: rest) n results =
      inlineScriptsLoop env rest (n + 1)
        (results ++ [inlineResource ((env.uuid n).take 8) (toBytes (TrimSpace s.text))]) ∧
    (inlineResource ((env.uuid n).take 8) (toBytes (TrimSpace s.text))).Filename =
      "inline_script_".toList ++ (env.uuid n).take 8 ++ ".js.random".toList ∧
    HasSuffix (inlineResource ((env.uuid n).take 8) (toBytes (TrimSpace s.text))).Filename
      ".js".toList = false ∧
    (inlineResource ((env.uuid n).take 8) (toBytes (TrimSpace s.text))).Filename ≠
      "inline_script_".toList ++ (env.uuid n).take 8 ++ ".js".toList := by
  refine ⟨?_, rfl, hasSuffix_js_random _, ?_⟩
  · rw [inlineScriptsLoop]
    simp only [hsrc, Bool.not_false, if_true]
    rw [if_pos htext]
    rfl
  · intro e
    have := congrArg List.length e
    simp [inlineResource] at this

/-- Witness of `inlineScript_filename`: the element `<script> var x=1; </script>`, and
the file name `Parse` gives to its resource. -/
theorem inlineScript_filename_witness :
    inlineScript.hasSrc = false ∧ TrimSpace inlineScript.text ≠ [] ∧
    (Parse (scriptEnv twoHTMLFile) 3 (New [] false) 0).map
      (fun r => r.toOption.map
        (fun p => (p.Resources.drop 2).map (fun x => (x.Filename, x.Source)))) =
      some (some [("inline_script_3f2a9c01.js.random".toList, "inline".toList)]) ∧
    HasSuffix
      (inlineResource (((scriptEnv twoHTMLFile).uuid 0).take 8)
        (toBytes (TrimSpace inlineScript.text))).Filename ".js".toList = false :=
  ⟨by decide, by decide, by decide,
    (inlineScript_filename (scriptEnv twoHTMLFile) inlineScript [] 0 [] (by decide)
      (by decide)).2.2.1⟩

/-! ## Filesystem -/

theorem lookup_add (fs : FS) (c c1 : Node) (e : Entry) (hc : c ≠ []) :
    (fs.add c e).lookup c1 = if c1 = c then some e else fs.lookup c1 := by
  unfold FS.lookup FS.add
  by_cases h1 : c1 = []
  · subst h1
    rw [if_pos rfl, if_pos rfl, if_neg (fun h => hc h.symm)]
  · rw [if_neg h1, if_neg h1]
    simp only
    by_cases h : c1 = c
    · subst h
      rw [List.lookup_cons, beq_self_eq_true, if_pos rfl]
    · have hb : (c1 == c) = false := by simpa using h
      rw [List.lookup_cons, hb, if_neg h]

theorem Keeps_refl (fs : FS) : Keeps fs fs := ⟨rfl, fun _ _ h => h⟩

theorem Keeps_trans {fs fs1 fs2 : FS} (h1 : Keeps fs fs1) (h2 : Keeps fs1 fs2) :
    Keeps fs fs2 :=
  ⟨h2.1.trans h1.1, fun c e h => h2.2 c e (h1.2 c e h)⟩

/-- Adding an entry at a node that does not exist keeps every node. -/
theorem Keeps_add (fs : FS) (c : Node) (e : Entry) (hc : c ≠ [])
    (hnone : fs.lookup c = none) : Keeps fs (fs.add c e) := by
  refine ⟨rfl, fun c1 e1 h => ?_⟩
  rw [lookup_add fs c c1 e hc]
  by_cases h1 : c1 = c
  · subst h1; rw [hnone] at h; simp at h
  · rw [if_neg h1]; exact h

/-- A path that resolves to a node resolves to it on every filesystem that keeps the
nodes. -/
theorem walk_mono (fs fs1 : FS) (hk : Keeps fs fs1) (comps : List GoString) :
    ∀ (cur c : Node) (e : Entry),
      walk fs cur comps = Resolution.found c e → walk fs1 cur comps = Resolution.found c e := by
  induction comps with
  | nil => intro cur c e h; exact h
  | cons comp rest ih =>
    intro cur c e h
    unfold walk at h ⊢
    by_cases h1 : comp = [] ∨ comp = ['.']
    · rw [if_pos h1] at h ⊢; exact ih cur c e h
    · rw [if_neg h1] at h ⊢
      by_cases h2 : comp = ['.', '.']
      · rw [if_pos h2] at h ⊢
        cases hl : fs.lookup cur.dropLast with
        | none => rw [hl] at h; simp at h
        | some x =>
          cases x with
          | file d => rw [hl] at h; simp at h
          | dir =>
            rw [hl] at h
            rw [hk.2 _ _ hl]
            exact ih _ c e h
      · rw [if_neg h2] at h ⊢
        cases hl : fs.lookup (cur ++ [comp]) with
        | none =>
          rw [hl] at h
          simp only at h
          split at h <;> simp at h
        | some x =>
          rw [hl] at h
          rw [hk.2 _ _ hl]
          cases x with
          | dir => exact ih _ c e h
          | file d => exact h

theorem resolve_mono (fs fs1 : FS) (hk : Keeps fs fs1) (path : GoString) (c : Node)
    (e : Entry) (h : resolve fs path = Resolution.found c e) :
    resolve fs1 path = Resolution.found c e := by
  unfold resolve at h ⊢
  by_cases h0 : path = []
  · rw [if_pos h0] at h; simp at h
  · rw [if_neg h0] at h ⊢
    by_cases h1 : path.head? = some PathSeparator
    · rw [if_pos h1] at h ⊢
      exact walk_mono fs fs1 hk _ _ c e h
    · rw [if_neg h1] at h ⊢
      rw [hk.1]
      cases hl : fs.lookup fs.cwd with
      | none => rw [hl] at h; simp at h
      | some x =>
        cases x with
        | file d => rw [hl] at h; simp at h
        | dir =>
          rw [hl] at h
          rw [hk.2 _ _ hl]
          exact walk_mono fs fs1 hk _ _ c e h

/-- What `os.Stat` finds is found on every filesystem that keeps the nodes. -/
theorem Stat_mono (fs fs1 : FS) (hk : Keeps fs fs1) (path : GoString)
    (h : fileExists fs path = true) : Stat fs1 path = Stat fs path := by
  unfold fileExists Stat at h
  unfold Stat
  cases hr : resolve fs path with
  | found c e => rw [resolve_mono fs fs1 hk path c e hr]
  | absent c s => rw [hr] at h; simp at h
  | fails => rw [hr] at h; simp at h

theorem fileExists_mono (fs fs1 : FS) (hk : Keeps fs fs1) (path : GoString)
    (h : fileExists fs path = true) : fileExists fs1 path = true := by
  unfold fileExists
  rw [Stat_mono fs fs1 hk path h]
  exact h

theorem readFile_mono (fs fs1 : FS) (hk : Keeps fs fs1) (path : GoString) (d : Bytes)
    (h : fs.readFile path = some d) : fs1.readFile path = some d := by
  have hex : fileExists fs path = true := by
    unfold FS.readFile at h
    unfold fileExists
    cases hs : Stat fs path with
    | none => rw [hs] at h; simp at h
    | some e => rfl
  unfold FS.readFile
  rw [Stat_mono fs fs1 hk path hex]
  exact h

/-- A path that names an absent node names a node, other than the root, that does not
exist. -/
theorem walk_absent (fs : FS) (comps : List GoString) :
    ∀ (cur c : Node) (s : Bool),
      walk fs cur comps = Resolution.absent c s → fs.lookup c = none ∧ c ≠ [] := by
  induction comps with
  | nil => intro cur c s h; simp [walk] at h
  | cons comp rest ih =>
    intro cur c s h
    unfold walk at h
    by_cases h1 : comp = [] ∨ comp = ['.']
    · rw [if_pos h1] at h; exact ih cur c s h
    · rw [if_neg h1] at h
      by_cases h2 : comp = ['.', '.']
      · rw [if_pos h2] at h
        cases hl : fs.lookup cur.dropLast with
        | none => rw [hl] at h; simp at h
        | some x =>
          cases x with
          | file d => rw [hl] at h; simp at h
          | dir => rw [hl] at h; exact ih _ c s h
      · rw [if_neg h2] at h
        cases hl : fs.lookup (cur ++ [comp]) with
        | none =>
          rw [hl] at h
          simp only at h
          split at h
          · simp only [Resolution.absent.injEq] at h
            rw [← h.1]
            exact ⟨hl, by simp⟩
          · simp at h
        | some x =>
          rw [hl] at h
          cases x with
          | dir => exact ih _ c s h
          | file d =>
            simp only at h
            split at h <;> simp at h

/-- Once a file is put at the absent node a path names, without separator after the
name, the path resolves to the file. -/
theorem walk_add_file (fs : FS) (c : Node) (d : Bytes) (comps : List GoString) :
    ∀ cur : Node, walk fs cur comps = Resolution.absent c false →
      walk (fs.add c (Entry.file d)) cur comps = Resolution.found c (Entry.file d) := by
  induction comps with
  | nil => intro cur h; simp [walk] at h
  | cons comp rest ih =>
    intro cur h
    obtain ⟨hnone, hc⟩ := walk_absent fs _ cur c false h
    have hk := Keeps_add fs c (Entry.file d) hc hnone
    unfold walk at h ⊢
    by_cases h1 : comp = [] ∨ comp = ['.']
    · rw [if_pos h1] at h ⊢; exact ih cur h
    · rw [if_neg h1] at h ⊢
      by_cases h2 : comp = ['.', '.']
      · rw [if_pos h2] at h ⊢
        cases hl : fs.lookup cur.dropLast with
        | none => rw [hl] at h; simp at h
        | some x =>
          cases x with
          | file d1 => rw [hl] at h; simp at h
          | dir =>
            rw [hl] at h
            rw [hk.2 _ _ hl]
            exact ih _ h
      · rw [if_neg h2] at h ⊢
        cases hl : fs.lookup (cur ++ [comp]) with
        | none =>
          rw [hl] at h
          simp only at h
          split at h
          · simp only [Resolution.absent.injEq] at h
            obtain ⟨hc1, hs⟩ := h
            have hrest : rest = [] := by
              cases rest with
              | nil => rfl
              | cons a as => simp at hs
            subst hrest
            rw [hc1, lookup_add fs c c _ hc, if_pos rfl]
            simp
          · simp at h
        | some x =>
          rw [hl] at h
          rw [hk.2 _ _ hl]
          cases x with
          | dir => exact ih _ h
          | file d1 =>
            simp only at h
            split at h <;> simp at h

/-- On a filesystem with one more file, a path resolves to the new file or to what it
resolved to before. -/
theorem walk_add_file_found (fs : FS) (c : Node) (d : Bytes) (hc : c ≠ [])
    (comps : List GoString) :
    ∀ (cur c1 : Node) (e1 : Entry),
      walk (fs.add c (Entry.file d)) cur comps = Resolution.found c1 e1 →
      c1 = c ∨ walk fs cur comps = Resolution.found c1 e1 := by
  induction comps with
  | nil => intro cur c1 e1 h; exact Or.inr h
  | cons comp rest ih =>
    intro cur c1 e1 h
    unfold walk at h ⊢
    by_cases h1 : comp = [] ∨ comp = ['.']
    · rw [if_pos h1] at h ⊢; exact ih cur c1 e1 h
    · rw [if_neg h1] at h ⊢
      by_cases h2 : comp = ['.', '.']
      · rw [if_pos h2] at h ⊢
        rw [lookup_add fs c _ _ hc] at h
        by_cases hp : cur.dropLast = c
        · rw [if_pos hp] at h; simp at h
        · rw [if_neg hp] at h
          cases hl : fs.lookup cur.dropLast with
          | none => rw [hl] at h; simp at h
          | some x =>
            cases x with
            | file d1 => rw [hl] at h; simp at h
            | dir => rw [hl] at h; exact ih _ c1 e1 h
      · rw [if_neg h2] at h ⊢
        rw [lookup_add fs c _ _ hc] at h
        by_cases hp : cur ++ [comp] = c
        · rw [if_pos hp] at h
          simp only at h
          split at h
          · simp only [Resolution.found.injEq] at h
            exact Or.inl (h.1.symm.trans hp)
          · simp at h
        · rw [if_neg hp] at h
          cases hl : fs.lookup (cur ++ [comp]) with
          | none =>
            rw [hl] at h
            simp only at h
            split at h <;> simp at h
          | some x =>
            rw [hl] at h
            cases x with
            | dir => exact ih _ c1 e1 h
            | file d1 => exact Or.inr h

/-- The node a path resolves to ends with the last element of the path, when that is a
name. -/
theorem walk_last (fs : FS) (name : GoString)
    (hname : name ≠ [] ∧ name ≠ ['.'] ∧ name ≠ ['.', '.']) (comps : List GoString) :
    ∀ (cur c : Node) (e : Entry), comps.getLast? = some name →
      walk fs cur comps = Resolution.found c e → c.getLast? = some name := by
  induction comps with
  | nil => intro cur c e hl; simp at hl
  | cons comp rest ih =>
    intro cur c e hl h
    cases rest with
    | nil =>
      simp only [List.getLast?_singleton, Option.some.injEq] at hl
      subst hl
      unfold walk at h
      rw [if_neg (by intro hx; rcases hx with hx | hx; exact hname.1 hx; exact hname.2.1 hx),
        if_neg hname.2.2] at h
      cases hlk : fs.lookup (cur ++ [comp]) with
      | none => rw [hlk] at h; simp at h
      | some x =>
        rw [hlk] at h
        cases x with
        | dir =>
          simp only [walk, Resolution.found.injEq] at h
          rw [← h.1]; simp
        | file d =>
          simp only [if_true, Resolution.found.injEq] at h
          rw [← h.1]; simp
    | cons r rs =>
      rw [List.getLast?_cons_cons] at hl
      unfold walk at h
      by_cases h1 : comp = [] ∨ comp = ['.']
      · rw [if_pos h1] at h; exact ih cur c e hl h
      · rw [if_neg h1] at h
        by_cases h2 : comp = ['.', '.']
        · rw [if_pos h2] at h
          cases hlk : fs.lookup cur.dropLast with
          | none => rw [hlk] at h; simp at h
          | some x =>
            cases x with
            | file d => rw [hlk] at h; simp at h
            | dir => rw [hlk] at h; exact ih _ c e hl h
        · rw [if_neg h2] at h
          cases hlk : fs.lookup (cur ++ [comp]) with
          | none =>
            rw [hlk] at h
            simp only at h
            split at h <;> simp at h
          | some x =>
            rw [hlk] at h
            cases x with
            | dir => exact ih _ c e hl h
            | file d => simp at h

/-- What a path resolves to exists, when the resolution starts in a directory. -/
theorem walk_found_lookup (fs : FS) (comps : List GoString) :
    ∀ (cur c : Node) (e : Entry), fs.lookup cur = some Entry.dir →
      walk fs cur comps = Resolution.found c e → fs.lookup c = some e := by
  induction comps with
  | nil =>
    intro cur c e hcur h
    simp only [walk, Resolution.found.injEq] at h
    rw [← h.1, ← h.2]; exact hcur
  | cons comp rest ih =>
    intro cur c e hcur h
    unfold walk at h
    by_cases h1 : comp = [] ∨ comp = ['.']
    · rw [if_pos h1] at h; exact ih cur c e hcur h
    · rw [if_neg h1] at h
      by_cases h2 : comp = ['.', '.']
      · rw [if_pos h2] at h
        cases hlk : fs.lookup cur.dropLast with
        | none => rw [hlk] at h; simp at h
        | some x =>
          cases x with
          | file d => rw [hlk] at h; simp at h
          | dir => rw [hlk] at h; exact ih _ c e hlk h
      · rw [if_neg h2] at h
        cases hlk : fs.lookup (cur ++ [comp]) with
        | none =>
          rw [hlk] at h
          simp only at h
          split at h <;> simp at h
        | some x =>
          rw [hlk] at h
          cases x with
          | dir => exact ih _ c e hlk h
          | file d =>
            simp only at h
            split at h
            · simp only [Resolution.found.injEq] at h
              rw [← h.1, ← h.2]; exact hlk
            · simp at h

theorem resolve_absent (fs : FS) (path : GoString) (c : Node) (s : Bool)
    (h : resolve fs path = Resolution.absent c s) : fs.lookup c = none ∧ c ≠ [] := by
  unfold resolve at h
  by_cases h0 : path = []
  · rw [if_pos h0] at h; simp at h
  · rw [if_neg h0] at h
    by_cases h1 : path.head? = some PathSeparator
    · rw [if_pos h1] at h; exact walk_absent fs _ _ c s h
    · rw [if_neg h1] at h
      cases hl : fs.lookup fs.cwd with
      | none => rw [hl] at h; simp at h
      | some x =>
        cases x with
        | file d => rw [hl] at h; simp at h
        | dir => rw [hl] at h; exact walk_absent fs _ _ c s h

theorem resolve_found_lookup (fs : FS) (path : GoString) (c : Node) (e : Entry)
    (h : resolve fs path = Resolution.found c e) : fs.lookup c = some e := by
  unfold resolve at h
  by_cases h0 : path = []
  · rw [if_pos h0] at h; simp at h
  · rw [if_neg h0] at h
    by_cases h1 : path.head? = some PathSeparator
    · rw [if_pos h1] at h; exact walk_found_lookup fs _ _ c e (by simp [FS.lookup]) h
    · rw [if_neg h1] at h
      cases hl : fs.lookup fs.cwd with
      | none => rw [hl] at h; simp at h
      | some x =>
        cases x with
        | file d => rw [hl] at h; simp at h
        | dir => rw [hl] at h; exact walk_found_lookup fs _ _ c e hl h

theorem resolve_add_file (fs : FS) (path : GoString) (c : Node) (d : Bytes)
    (h : resolve fs path = Resolution.absent c false) :
    resolve (fs.add c (Entry.file d)) path = Resolution.found c (Entry.file d) := by
  obtain ⟨hnone, hc⟩ := resolve_absent fs path c false h
  have hk := Keeps_add fs c (Entry.file d) hc hnone
  unfold resolve at h ⊢
  by_cases h0 : path = []
  · rw [if_pos h0] at h; simp at h
  · rw [if_neg h0] at h ⊢
    by_cases h1 : path.head? = some PathSeparator
    · rw [if_pos h1] at h ⊢; exact walk_add_file fs c d _ _ h
    · rw [if_neg h1] at h ⊢
      rw [hk.1]
      cases hl : fs.lookup fs.cwd with
      | none => rw [hl] at h; simp at h
      | some x =>
        cases x with
        | file d1 => rw [hl] at h; simp at h
        | dir =>
          rw [hl] at h
          rw [hk.2 _ _ hl]
          exact walk_add_file fs c d _ _ h

theorem resolve_add_file_found (fs : FS) (path : GoString) (c c1 : Node) (d : Bytes)
    (e1 : Entry) (hc : c ≠ [])
    (h : resolve (fs.add c (Entry.file d)) path = Resolution.found c1 e1) :
    c1 = c ∨ resolve fs path = Resolution.found c1 e1 := by
  unfold resolve at h ⊢
  by_cases h0 : path = []
  · rw [if_pos h0] at h; simp at h
  · rw [if_neg h0] at h ⊢
    by_cases h1 : path.head? = some PathSeparator
    · rw [if_pos h1] at h ⊢; exact walk_add_file_found fs c d hc _ _ c1 e1 h
    · rw [if_neg h1] at h ⊢
      have hcwd : (fs.add c (Entry.file d)).cwd = fs.cwd := rfl
      rw [hcwd, lookup_add fs c _ _ hc] at h
      by_cases hp : fs.cwd = c
      · rw [if_pos hp] at h; simp at h
      · rw [if_neg hp] at h
        cases hl : fs.lookup fs.cwd with
        | none => rw [hl] at h; simp at h
        | some x =>
          cases x with
          | file d1 => rw [hl] at h; simp at h
          | dir =>
            rw [hl] at h
            exact walk_add_file_found fs c d hc _ _ c1 e1 h

theorem resolve_last (fs : FS) (path name : GoString) (c : Node) (e : Entry)
    (hname : name ≠ [] ∧ name ≠ ['.'] ∧ name ≠ ['.', '.'])
    (hl : (Split path PathSeparator).getLast? = some name)
    (h : resolve fs path = Resolution.found c e) : c.getLast? = some name := by
  unfold resolve at h
  by_cases h0 : path = []
  · rw [if_pos h0] at h; simp at h
  · rw [if_neg h0] at h
    by_cases h1 : path.head? = some PathSeparator
    · rw [if_pos h1] at h; exact walk_last fs name hname _ _ c e hl h
    · rw [if_neg h1] at h
      cases hlk : fs.lookup fs.cwd with
      | none => rw [hlk] at h; simp at h
      | some x =>
        cases x with
        | file d => rw [hlk] at h; simp at h
        | dir => rw [hlk] at h; exact walk_last fs name hname _ _ c e hl h

theorem fileExists_false_iff (fs : FS) (path : GoString) :
    fileExists fs path = false ↔ ∀ c e, resolve fs path ≠ Resolution.found c e := by
  unfold fileExists Stat
  cases hr : resolve fs path with
  | found c e => simp
  | absent c s => simp
  | fails => simp

theorem fileExists_true_iff (fs : FS) (path : GoString) :
    fileExists fs path = true ↔ ∃ c e, resolve fs path = Resolution.found c e := by
  unfold fileExists Stat
  cases hr : resolve fs path with
  | found c e => simp
  | absent c s => simp
  | fails => simp

/-- A write that succeeds on a path that does not exist puts a file at a node that did
not exist, the node the path names. -/
theorem WriteFile_fresh_ok (fs : FS) (path : GoString) (data : Bytes)
    (hfree : fileExists fs path = false) (h : (WriteFile fs path data).1 = true) :
    ∃ c : Node, resolve fs path = Resolution.absent c false ∧
      (WriteFile fs path data).2 = fs.add c (Entry.file data) ∧
      fs.lookup c = none ∧ c ≠ [] := by
  have hnf := (fileExists_false_iff fs path).mp hfree
  unfold WriteFile at h ⊢
  cases hr : resolve fs path with
  | found c e => exact absurd hr (hnf c e)
  | fails => rw [hr] at h; simp at h
  | absent c s =>
    rw [hr] at h
    obtain ⟨hnone, hc⟩ := resolve_absent fs path c s hr
    cases s with
    | true => simp at h
    | false =>
      simp only at h ⊢
      by_cases hd : fs.writeDenied c = true
      · rw [if_pos hd] at h; simp at h
      · rw [if_neg hd]
        exact ⟨c, rfl, rfl, hnone, hc⟩

/-- A failed `WriteFile` leaves the filesystem as it was. -/
theorem WriteFile_fail (fs : FS) (path : GoString) (data : Bytes)
    (h : (WriteFile fs path data).1 = false) : (WriteFile fs path data).2 = fs := by
  unfold WriteFile at h ⊢
  split
  · rename_i c d hr
    rw [hr] at h
    simp only at h
    by_cases hd : fs.writeDenied c = true
    · rw [if_pos hd]
    · rw [if_neg hd] at h; simp at h
  · rename_i c hr
    rw [hr] at h
    simp only at h
    by_cases hd : fs.writeDenied c = true
    · rw [if_pos hd]
    · rw [if_neg hd] at h; simp at h
  · rfl

/-- After a write that succeeds on a path that did not exist: every node is kept, the
path reads the data, there is one more entry, and the refusals are the same. -/
theorem WriteFile_fresh_spec (fs : FS) (path : GoString) (data : Bytes)
    (hfree : fileExists fs path = false) (h : (WriteFile fs path data).1 = true) :
    Keeps fs (WriteFile fs path data).2 ∧
    (WriteFile fs path data).2.readFile path = some data ∧
    fileExists (WriteFile fs path data).2 path = true ∧
    (WriteFile fs path data).2.entries.length = fs.entries.length + 1 ∧
    (WriteFile fs path data).2.writeDenied = fs.writeDenied := by
  obtain ⟨c, hr, hw, hnone, hc⟩ := WriteFile_fresh_ok fs path data hfree h
  rw [hw]
  have hres := resolve_add_file fs path c data hr
  refine ⟨Keeps_add fs c _ hc hnone, ?_, ?_, by simp [FS.add], rfl⟩
  · unfold FS.readFile Stat; rw [hres]
  · unfold fileExists Stat; rw [hres]; rfl

theorem OnlyDirsAdded_refl (fs : FS) : OnlyDirsAdded fs fs :=
  ⟨Keeps_refl fs, fun _ => rfl, rfl, rfl⟩

theorem OnlyDirsAdded_trans {fs fs1 fs2 : FS} (h1 : OnlyDirsAdded fs fs1)
    (h2 : OnlyDirsAdded fs1 fs2) : OnlyDirsAdded fs fs2 :=
  ⟨Keeps_trans h1.1 h2.1, fun c => (h2.2.1 c).trans (h1.2.1 c),
    h2.2.2.1.trans h1.2.2.1, h2.2.2.2.trans h1.2.2.2⟩

/-- `os.Mkdir` adds at most one directory and nothing else. -/
theorem Mkdir_spec (fs : FS) (path : GoString) :
    OnlyDirsAdded fs (Mkdir fs path).2 ∧
    (Mkdir fs path).2.entries.length ≤ fs.entries.length + 1 := by
  unfold Mkdir
  cases hr : resolve fs path with
  | found c e => exact ⟨OnlyDirsAdded_refl fs, Nat.le_succ _⟩
  | fails => exact ⟨OnlyDirsAdded_refl fs, Nat.le_succ _⟩
  | absent c s =>
    simp only
    by_cases hd : fs.mkdirDenied c = true
    · rw [if_pos hd]; exact ⟨OnlyDirsAdded_refl fs, Nat.le_succ _⟩
    · rw [if_neg hd]
      obtain ⟨hnone, hc⟩ := resolve_absent fs path c s hr
      refine ⟨⟨Keeps_add fs c _ hc hnone, ?_, rfl, rfl⟩, by simp [FS.add]⟩
      intro c1
      unfold FS.fileAt
      rw [lookup_add fs c c1 _ hc]
      by_cases h1 : c1 = c
      · rw [if_pos h1, h1, hnone]
      · rw [if_neg h1]

/-- `os.MkdirAll` adds directories and nothing else, whether it succeeds or fails. -/
theorem mkdirAllAux_spec (fuel : Nat) :
    ∀ (fs : FS) (path : GoString),
      OnlyDirsAdded fs (mkdirAllAux fuel fs path).2 ∧
      (mkdirAllAux fuel fs path).2.entries.length ≤ fs.entries.length + fuel := by
  induction fuel with
  | zero => intro fs path; exact ⟨OnlyDirsAdded_refl fs, by simp [mkdirAllAux]⟩
  | succ n ih =>
    intro fs path
    unfold mkdirAllAux
    cases hs : Stat fs path with
    | some e =>
      cases e with
      | dir => exact ⟨OnlyDirsAdded_refl fs, by simp⟩
      | file d => exact ⟨OnlyDirsAdded_refl fs, by simp⟩
    | none =>
      simp only
      have hr : OnlyDirsAdded fs
            (if parentOf path ≠ [] then mkdirAllAux n fs (parentOf path) else (true, fs)).2 ∧
          (if parentOf path ≠ [] then mkdirAllAux n fs (parentOf path)
            else (true, fs)).2.entries.length ≤ fs.entries.length + n := by
        by_cases hp : parentOf path ≠ []
        · rw [if_pos hp]; exact ih fs (parentOf path)
        · rw [if_neg hp]; exact ⟨OnlyDirsAdded_refl fs, by simp⟩
      generalize (if parentOf path ≠ [] then mkdirAllAux n fs (parentOf path)
        else (true, fs)) = r at hr
      obtain ⟨hr1, hr2⟩ := hr
      by_cases hok : r.1 = true
      · rw [if_pos hok]
        obtain ⟨hm1, hm2⟩ := Mkdir_spec r.2 path
        have hall : OnlyDirsAdded fs (Mkdir r.2 path).2 ∧
            (Mkdir r.2 path).2.entries.length ≤ fs.entries.length + (n + 1) :=
          ⟨OnlyDirsAdded_trans hr1 hm1, by omega⟩
        by_cases hmk : (Mkdir r.2 path).1 = true
        · rw [if_pos hmk]; exact hall
        · rw [if_neg hmk]
          split <;> exact hall
      · rw [if_neg hok]
        exact ⟨hr1, Nat.le_succ_of_le hr2⟩

theorem MkdirAll_spec (fs : FS) (path : GoString) :
    OnlyDirsAdded fs (MkdirAll fs path).2 ∧
    (MkdirAll fs path).2.entries.length ≤ fs.entries.length + (path.length + 1) :=
  mkdirAllAux_spec (path.length + 1) fs path

/-- The parent that `os.MkdirAll` computes is shorter than the path. -/
theorem parentOf_length (path : GoString) (h : path ≠ []) :
    (parentOf path).length < path.length := by
  unfold parentOf
  rw [List.length_reverse, List.length_drop]
  have hrev : path.reverse ≠ [] := by simpa using h
  have hlen : path.reverse.length = path.length := List.length_reverse path
  cases hx : path.reverse with
  | nil => exact absurd hx hrev
  | cons a as =>
    rw [hx] at hlen
    simp only [List.length_cons] at hlen
    have h1 : ∀ (p : Char → Bool) (l : List Char), (l.dropWhile p).length ≤ l.length :=
      fun p l => (List.dropWhile_sublist p).length_le
    by_cases hsep : IsPathSeparator a = true
    · have e : (a :: as).dropWhile IsPathSeparator = as.dropWhile IsPathSeparator := by
        rw [List.dropWhile_cons, if_pos hsep]
      rw [e]
      have := h1 (fun c => !IsPathSeparator c) (as.dropWhile IsPathSeparator)
      have := h1 IsPathSeparator as
      omega
    · have e : (a :: as).dropWhile IsPathSeparator = a :: as := by
        rw [List.dropWhile_cons, if_neg hsep]
      rw [e]
      have e2 : (a :: as).dropWhile (fun c => !IsPathSeparator c) =
          as.dropWhile (fun c => !IsPathSeparator c) := by
        rw [List.dropWhile_cons, if_pos (by simpa using hsep)]
      rw [e2]
      have := h1 (fun c => !IsPathSeparator c) as
      omega

/-- The recursion of `os.MkdirAll` never runs out of fuel: more fuel than the length of
the path changes nothing. -/
theorem mkdirAllAux_fuel (fuel : Nat) :
    ∀ (fs : FS) (path : GoString), path.length < fuel →
      mkdirAllAux fuel fs path = MkdirAll fs path := by
  induction fuel using Nat.strong_induction_on with
  | _ fuel ih =>
    intro fs path hlt
    unfold MkdirAll
    obtain ⟨k, rfl⟩ : ∃ k, fuel = k + 1 := ⟨fuel - 1, by omega⟩
    unfold mkdirAllAux
    by_cases hp : parentOf path ≠ []
    · have hpath : path ≠ [] := by
        intro e; rw [e] at hp; exact hp (by simp [parentOf])
      have hpl := parentOf_length path hpath
      have e1 : mkdirAllAux k fs (parentOf path) = MkdirAll fs (parentOf path) := by
        by_cases hk : k = path.length
        · subst hk
          exact ih _ (by omega) fs _ hpl
        · exact ih k (by omega) fs _ (by omega)
      have e2 : mkdirAllAux path.length fs (parentOf path) = MkdirAll fs (parentOf path) :=
        ih _ (by omega) fs _ hpl
      rw [e1, e2]
    · simp only [if_neg hp]

/-! ## Extractor: the collision loop -/

/-- What the collision loop returns is a path that does not exist: the path it starts
from when that is free, otherwise the suffixed path of the smallest counter, from the
one it starts with, that is free. -/
theorem collisionLoop_some (fs : FS) (base ext : GoString) (fuel : Nat) :
    ∀ (counter : Nat) (path result : GoString),
      collisionLoop fs base ext fuel counter path = some result →
      fileExists fs result = false ∧
      ((fileExists fs path = false ∧ result = path) ∨
       (fileExists fs path = true ∧ ∃ k : Nat, counter ≤ k ∧
          result = suffixedPath base k ext ∧
          ∀ j : Nat, counter ≤ j → j < k →
            fileExists fs (suffixedPath base j ext) = true)) := by
  induction fuel with
  | zero => intro counter path result h; simp [collisionLoop] at h
  | succ n ih =>
    intro counter path result h
    unfold collisionLoop at h
    by_cases he : fileExists fs path = true
    · rw [if_pos he] at h
      obtain ⟨hfree, hcase⟩ := ih (counter + 1) _ result h
      refine ⟨hfree, Or.inr ⟨he, ?_⟩⟩
      rcases hcase with ⟨_, hr⟩ | ⟨hex, k, hk, hr, hall⟩
      · exact ⟨counter, le_refl _, hr, fun j h1 h2 => by omega⟩
      · refine ⟨k, by omega, hr, fun j h1 h2 => ?_⟩
        by_cases hj : j = counter
        · rw [hj]; exact hex
        · exact hall j (by omega) h2
    · rw [if_neg he] at h
      have he2 : fileExists fs path = false := by simpa using he
      have hr : result = path := (Option.some.inj h).symm
      rw [hr]
      exact ⟨he2, Or.inl ⟨he2, rfl⟩⟩

/-- When the collision loop runs out of fuel, every path it tried exists. -/
theorem collisionLoop_none (fs : FS) (base ext : GoString) (fuel : Nat) :
    ∀ (counter : Nat) (path : GoString),
      collisionLoop fs base ext fuel counter path = none →
      ∀ j : Nat, counter ≤ j → j + 1 < counter + fuel →
        fileExists fs (suffixedPath base j ext) = true := by
  induction fuel with
  | zero => intro counter path _ j h1 h2; omega
  | succ n ih =>
    intro counter path h j h1 h2
    unfold collisionLoop at h
    by_cases he : fileExists fs path = true
    · rw [if_pos he] at h
      by_cases hj : j = counter
      · subst hj
        obtain ⟨m, rfl⟩ : ∃ m, n = m + 1 := ⟨n - 1, by omega⟩
        unfold collisionLoop at h
        by_cases he2 : fileExists fs (suffixedPath base j ext) = true
        · exact he2
        · rw [if_neg he2] at h; simp at h
      · exact ih (counter + 1) _ h j (by omega) (by omega)
    · rw [if_neg he] at h; simp at h

theorem splitAux_ne_nil (sep : Char) (s : GoString) :
    ∀ cur : GoString, splitAux sep s cur ≠ [] := by
  induction s with
  | nil => intro cur; simp [splitAux]
  | cons c rest ih =>
    intro cur
    by_cases h : c = sep
    · simp [splitAux, h]
    · simp only [splitAux, if_neg h]; exact ih _

theorem mem_of_lookup {α β : Type} [BEq α] [LawfulBEq α] (l : List (α × β)) (k : α)
    (b : β) (h : l.lookup k = some b) : (k, b) ∈ l := by
  obtain ⟨l1, l2, e, _⟩ := List.lookup_eq_some_iff.mp h
  rw [e]; simp

theorem splitAux_getLast_append (sep : Char) (s t : GoString) (ht : sep ∉ t) :
    ∀ cur : GoString,
      (splitAux sep (s ++ t) cur).getLast? =
        ((splitAux sep s cur).getLast?).map (fun x => x ++ t) := by
  induction s with
  | nil =>
    intro cur
    rw [List.nil_append, splitAux_no_sep sep t ht cur]
    simp [splitAux]
  | cons c rest ih =>
    intro cur
    by_cases h : c = sep
    · have e1 : splitAux sep (c :: rest ++ t) cur =
          cur.reverse :: splitAux sep (rest ++ t) [] := by
        rw [List.cons_append, splitAux, if_pos h]
      have e2 : splitAux sep (c :: rest) cur = cur.reverse :: splitAux sep rest [] := by
        rw [splitAux, if_pos h]
      rw [e1, e2]
      cases hx : splitAux sep (rest ++ t) [] with
      | nil => exact absurd hx (splitAux_ne_nil sep _ _)
      | cons a as =>
        cases hy : splitAux sep rest [] with
        | nil => exact absurd hy (splitAux_ne_nil sep _ _)
        | cons b bs =>
          rw [List.getLast?_cons_cons, List.getLast?_cons_cons, ← hx, ← hy]
          exact ih []
    · have e1 : splitAux sep (c :: rest ++ t) cur = splitAux sep (rest ++ t) (c :: cur) := by
        rw [List.cons_append, splitAux, if_neg h]
      have e2 : splitAux sep (c :: rest) cur = splitAux sep rest (c :: cur) := by
        rw [splitAux, if_neg h]
      rw [e1, e2]
      exact ih (c :: cur)

theorem extAux_no_sep (l : GoString) :
    ∀ acc : GoString, PathSeparator ∉ acc → PathSeparator ∉ extAux l acc := by
  induction l with
  | nil => intro acc _; simp [extAux]
  | cons c rest ih =>
    intro acc hacc
    unfold extAux
    by_cases h1 : IsPathSeparator c = true
    · rw [if_pos h1]; simp
    · rw [if_neg h1]
      by_cases h2 : c = '.'
      · rw [if_pos h2]
        intro hm
        rcases List.mem_cons.mp hm with e | hm2
        · rw [h2] at e; revert e; decide
        · exact hacc hm2
      · rw [if_neg h2]
        apply ih
        intro hm
        rcases List.mem_cons.mp hm with e | hm2
        · apply h1; rw [← e]; simp [IsPathSeparator]
        · exact hacc hm2

/-- The extension of a path holds no separator. -/
theorem Ext_no_sep (path : GoString) : PathSeparator ∉ Ext path :=
  extAux_no_sep _ [] (by simp)

theorem digitChar_ne_sep (d : Nat) (h : d < 10) : Nat.digitChar d ≠ PathSeparator := by
  interval_cases d <;> decide

theorem toDigitsCore_no_sep (fuel : Nat) :
    ∀ (n : Nat) (ds : List Char), PathSeparator ∉ ds →
      PathSeparator ∉ Nat.toDigitsCore 10 fuel n ds := by
  induction fuel with
  | zero => intro n ds h; simpa [Nat.toDigitsCore] using h
  | succ k ih =>
    intro n ds h
    unfold Nat.toDigitsCore
    simp only
    have hcons : PathSeparator ∉ Nat.digitChar (n % 10) :: ds := by
      intro hm
      rcases List.mem_cons.mp hm with e | hm2
      · exact digitChar_ne_sep _ (Nat.mod_lt _ (by decide)) e.symm
      · exact h hm2
    split
    · exact hcons
    · exact ih _ _ hcons

theorem formatDecimal_no_sep (n : Nat) : PathSeparator ∉ formatDecimal n :=
  toDigitsCore_no_sep _ _ _ (by simp)

/-- The last element of a suffixed path is the last element of the base, suffixed; it
is a name. -/
theorem suffixedPath_last (base ext : GoString) (hext : PathSeparator ∉ ext) (k : Nat) :
    ∃ L : GoString,
      (Split base PathSeparator).getLast? = some L ∧
      (Split (suffixedPath base k ext) PathSeparator).getLast? =
        some (suffixedPath L k ext) ∧
      suffixedPath L k ext ≠ [] ∧ suffixedPath L k ext ≠ ['.'] ∧
      suffixedPath L k ext ≠ ['.', '.'] := by
  have hne := splitAux_ne_nil PathSeparator base []
  obtain ⟨L, hL⟩ : ∃ L, (Split base PathSeparator).getLast? = some L := by
    unfold Split
    cases hx : splitAux PathSeparator base [] with
    | nil => exact absurd hx hne
    | cons a as => exact ⟨_, List.getLast?_eq_getLast _ (List.cons_ne_nil a as)⟩
  have ht : PathSeparator ∉ '_' :: formatDecimal k ++ ext := by
    intro hm
    rcases List.mem_cons.mp hm with e | hm2
    · revert e; decide
    · rcases List.mem_append.mp hm2 with h1 | h2
      · exact formatDecimal_no_sep k h1
      · exact hext h2
  have hund : '_' ∈ suffixedPath L k ext := by
    unfold suffixedPath; simp
  refine ⟨L, hL, ?_, ?_, ?_, ?_⟩
  · have e : suffixedPath base k ext = base ++ ('_' :: formatDecimal k ++ ext) := by
      unfold suffixedPath; simp
    have e2 : suffixedPath L k ext = L ++ ('_' :: formatDecimal k ++ ext) := by
      unfold suffixedPath; simp
    unfold Split at hL ⊢
    rw [e, splitAux_getLast_append _ _ _ ht, hL, e2]
    rfl
  · intro e; rw [e] at hund; simp at hund
  · intro e; rw [e] at hund; revert hund; decide
  · intro e; rw [e] at hund; revert hund; decide

/-- The collision loop ends when it has more fuel than the filesystem has entries, plus
one. -/
theorem collisionLoop_terminates (fs : FS) (base ext : GoString) (fuel counter : Nat)
    (path : GoString) (hext : PathSeparator ∉ ext) (hf : fs.entries.length + 2 ≤ fuel) :
    ∃ result, collisionLoop fs base ext fuel counter path = some result := by
  cases h : collisionLoop fs base ext fuel counter path with
  | some r => exact ⟨r, rfl⟩
  | none =>
    exfalso
    have hall := collisionLoop_none fs base ext fuel counter path h
    obtain ⟨L, hL, _⟩ := suffixedPath_last base ext hext 0
    have hnd : ((List.range' counter (fs.entries.length + 1)).map
        (fun j => some (suffixedPath L j ext))).Nodup :=
      List.Nodup.map (fun a b hab => suffixedPath_injective L ext a b (Option.some.inj hab))
        (List.nodup_range' _ _)
    have hsub : (List.range' counter (fs.entries.length + 1)).map
        (fun j => some (suffixedPath L j ext)) ⊆ fs.entries.map (fun e => e.1.getLast?) := by
      intro x hx
      obtain ⟨j, hj, rfl⟩ := List.mem_map.mp hx
      have hj2 := List.mem_range'_1.mp hj
      obtain ⟨L1, hL1, hlast, hn1, hn2, hn3⟩ := suffixedPath_last base ext hext j
      have hLL : L1 = L := Option.some.inj (hL1.symm.trans hL)
      subst hLL
      obtain ⟨c, e, hr⟩ := (fileExists_true_iff fs _).mp (hall j hj2.1 (by omega))
      have hcl := resolve_last fs _ _ c e ⟨hn1, hn2, hn3⟩ hlast hr
      have hlk := resolve_found_lookup fs _ c e hr
      have hc : c ≠ [] := by intro e0; rw [e0] at hcl; simp at hcl
      unfold FS.lookup at hlk
      rw [if_neg hc] at hlk
      have hmem : (c, e) ∈ fs.entries := mem_of_lookup _ _ _ hlk
      rw [← hcl]
      exact List.mem_map.mpr ⟨(c, e), hmem, rfl⟩
    have hlen := (List.subperm_of_subset hnd hsub).length_le
    simp at hlen

/-! ## Extractor: the resource loop -/

/-- The path the collision loop returns from the candidate path is the resolved path of
the specification. -/
theorem collisionLoop_resolved (fs : FS) (cand result : GoString) (fuel : Nat)
    (h : collisionLoop fs (TrimSuffix cand (Ext cand)) (Ext cand) fuel 1 cand = some result) :
    ResolvedPath fs cand result := by
  obtain ⟨hfree, hcase⟩ := collisionLoop_some fs _ _ fuel 1 cand result h
  exact ⟨hfree, hcase⟩

/-- A successful run of the resource loop performs the writes of the specification for
the selected resources, in order, and returns their paths after the ones it was given. -/
theorem extractLoop_trace (fuel : Nat) (dir : GoString) (nonNil : Bool) (set : List Int) :
    ∀ (rest : List Resource) (i : Nat) (fs : FS) (paths out : List GoString) (fs1 : FS),
      extractLoop fuel dir nonNil set rest i fs paths = some (Except.ok out, fs1) →
      ∃ new : List GoString, out = paths ++ new ∧
        WriteTrace dir fs (selectedFrom nonNil set rest i) new fs1 := by
  intro rest
  induction rest with
  | nil =>
    intro i fs paths out fs1 h
    simp only [extractLoop, Option.some.injEq, Prod.mk.injEq, Except.ok.injEq] at h
    exact ⟨[], by simp [h.1], by simp [selectedFrom, WriteTrace, h.2]⟩
  | cons res rest ih =>
    intro i fs paths out fs1 h
    unfold extractLoop at h
    unfold selectedFrom
    by_cases hs : (nonNil && !contains set (i : Int)) = true
    · rw [if_pos hs] at h ⊢
      exact ih (i + 1) fs paths out fs1 h
    · rw [if_neg hs] at h ⊢
      simp only at h
      cases hc : collisionLoop fs (TrimSuffix (Join dir res.Filename)
          (Ext (Join dir res.Filename))) (Ext (Join dir res.Filename)) fuel 1
          (Join dir res.Filename) with
      | none => rw [hc] at h; simp at h
      | some path1 =>
        rw [hc] at h
        simp only at h
        cases hw : WriteFile fs path1 res.Data with
        | mk ok fs2 =>
          rw [hw] at h
          cases ok with
          | false => simp at h
          | true =>
            simp only at h
            obtain ⟨new, hout, htr⟩ := ih (i + 1) fs2 (paths ++ [path1]) out fs1 h
            refine ⟨path1 :: new, by rw [hout]; simp, ?_⟩
            unfold WriteTrace
            rw [hw]
            exact ⟨collisionLoop_resolved fs _ _ fuel hc, rfl, htr⟩

/-- An index out of range makes the validation loop fail, with such an index. -/
theorem validateSelected_bad (len : Nat) :
    ∀ (l set : List Int), (∃ idx ∈ l, idx < 0 ∨ idx ≥ (len : Int)) →
      ∃ idx ∈ l, (idx < 0 ∨ idx ≥ (len : Int)) ∧
        validateSelected len l set = Except.error idx := by
  intro l
  induction l with
  | nil => intro set h; obtain ⟨_, hm, _⟩ := h; simp at hm
  | cons a rest ih =>
    intro set h
    unfold validateSelected
    by_cases ha : a < 0 ∨ a ≥ (len : Int)
    · rw [if_pos ha]
      exact ⟨a, List.mem_cons_self _ _, ha, rfl⟩
    · rw [if_neg ha]
      obtain ⟨idx, hm, hbad⟩ := h
      have hrest : ∃ idx ∈ rest, idx < 0 ∨ idx ≥ (len : Int) := by
        rcases List.mem_cons.mp hm with e | hm2
        · rw [e] at hbad; exact absurd hbad ha
        · exact ⟨idx, hm2, hbad⟩
      obtain ⟨j, hj, hjb, hv⟩ := ih (a :: set) hrest
      exact ⟨j, List.mem_cons_of_mem _ hj, hjb, hv⟩

/-- When every index is in range the validation loop returns the set of the indices. -/
theorem validateSelected_ok (len : Nat) :
    ∀ (l set : List Int), (∀ idx ∈ l, 0 ≤ idx ∧ idx < (len : Int)) →
      validateSelected len l set = Except.ok (l.reverse ++ set) := by
  intro l
  induction l with
  | nil => intro set _; rfl
  | cons a rest ih =>
    intro set h
    unfold validateSelected
    have ha := h a (List.mem_cons_self _ _)
    rw [if_neg (by omega), ih (a :: set) (fun idx hm => h idx (List.mem_cons_of_mem _ hm))]
    simp

/-- The resource loop depends on the selection only through the test of line 225. -/
theorem extractLoop_congr (fuel : Nat) (dir : GoString) (b1 b2 : Bool) (s1 s2 : List Int) :
    ∀ (rest : List Resource) (i : Nat) (fs : FS) (paths : List GoString),
      (∀ j : Nat, i ≤ j → j < i + rest.length →
        (b1 && !contains s1 (j : Int)) = (b2 && !contains s2 (j : Int))) →
      extractLoop fuel dir b1 s1 rest i fs paths =
        extractLoop fuel dir b2 s2 rest i fs paths := by
  intro rest
  induction rest with
  | nil => intro i fs paths _; rfl
  | cons res rest ih =>
    intro i fs paths h
    have hi := h i (le_refl _) (by simp)
    have hrest : ∀ (fs1 : FS) (ps : List GoString),
        extractLoop fuel dir b1 s1 rest (i + 1) fs1 ps =
          extractLoop fuel dir b2 s2 rest (i + 1) fs1 ps := fun fs1 ps =>
      ih (i + 1) fs1 ps (fun j h1 h2 => h j (by omega) (by simp only [List.length_cons]; omega))
    unfold extractLoop
    rw [hi]
    by_cases hs : (b2 && !contains s2 (i : Int)) = true
    · rw [if_pos hs, if_pos hs]; exact hrest fs paths
    · rw [if_neg hs, if_neg hs]
      simp only
      cases collisionLoop fs (TrimSuffix (Join dir res.Filename)
          (Ext (Join dir res.Filename))) (Ext (Join dir res.Filename)) fuel 1
          (Join dir res.Filename) with
      | none => rfl
      | some path1 =>
        simp only
        cases WriteFile fs path1 res.Data with
        | mk ok fs2 =>
          cases ok with
          | false => rfl
          | true => exact hrest fs2 _

/-- The selected resources are the resources at the selected indices, in ascending
order. -/
theorem selectedFrom_indices (set : List Int) :
    ∀ (rest : List Resource) (i : Nat),
      List.Forall₂ (fun j r => i ≤ j ∧ rest[j - i]? = some r)
        ((List.range' i rest.length).filter (fun j => contains set (j : Int)))
        (selectedFrom true set rest i) := by
  intro rest
  induction rest with
  | nil => intro i; simp [selectedFrom]
  | cons res rest ih =>
    intro i
    have hstep : List.Forall₂ (fun j r => i ≤ j ∧ (res :: rest)[j - i]? = some r)
        ((List.range' (i + 1) rest.length).filter (fun j => contains set (j : Int)))
        (selectedFrom true set rest (i + 1)) := by
      refine List.Forall₂.imp ?_ (ih (i + 1))
      intro j r ⟨h1, h2⟩
      refine ⟨by omega, ?_⟩
      have : j - i = (j - (i + 1)) + 1 := by omega
      rw [this, List.getElem?_cons_succ]
      exact h2
    unfold selectedFrom
    simp only [List.length_cons, List.range'_succ]
    by_cases hc : contains set (i : Int) = true
    · simp only [List.filter_cons, hc, if_true, Bool.not_true, Bool.and_false,
        Bool.false_eq_true, if_false]
      exact List.Forall₂.cons ⟨le_refl _, by simp⟩ hstep
    · have hc2 : contains set (i : Int) = false := by simpa using hc
      simp only [List.filter_cons, hc2, Bool.false_eq_true, if_false, Bool.not_false,
        Bool.and_true, if_true]
      exact hstep

/-- With a non-nil slice that selects no index of the list, the loop writes nothing. -/
theorem extractLoop_none_selected (fuel : Nat) (dir : GoString) (set : List Int) :
    ∀ (rest : List Resource) (i : Nat) (fs : FS) (paths : List GoString),
      (∀ j : Nat, i ≤ j → j < i + rest.length → contains set (j : Int) = false) →
      extractLoop fuel dir true set rest i fs paths = some (Except.ok paths, fs) := by
  intro rest
  induction rest with
  | nil => intro i fs paths _; rfl
  | cons res rest ih =>
    intro i fs paths h
    unfold extractLoop
    rw [if_pos (by simp [h i (le_refl _) (by simp)])]
    exact ih (i + 1) fs paths
      (fun j h1 h2 => h j (by omega) (by simp only [List.length_cons]; omega))

theorem contains_reverse_range (len j : Nat) (hj : j < len) :
    contains (((List.range len).map (fun i : Nat => (i : Int))).reverse ++ []) (j : Int) =
      true := by
  have hm : (j : Int) ∈ ((List.range len).map (fun i : Nat => (i : Int))).reverse ++ [] := by
    simp only [List.append_nil, List.mem_reverse, List.mem_map, List.mem_range]
    exact ⟨j, hj, rfl⟩
  unfold contains
  exact List.elem_eq_true_of_mem hm

/-- Whatever the resource loop returns, every node that existed before still is what it
was. -/
theorem extractLoop_keeps (fuel : Nat) (dir : GoString) (nonNil : Bool)
    (set : List Int) :
    ∀ (rest : List Resource) (i : Nat) (fs : FS) (paths : List GoString)
      (r : Except ExtractError (List GoString)) (fs1 : FS),
      extractLoop fuel dir nonNil set rest i fs paths = some (r, fs1) → Keeps fs fs1 := by
  intro rest
  induction rest with
  | nil =>
    intro i fs paths r fs1 h
    simp only [extractLoop, Option.some.injEq, Prod.mk.injEq] at h
    rw [← h.2]; exact Keeps_refl fs
  | cons res rest ih =>
    intro i fs paths r fs1 h
    unfold extractLoop at h
    by_cases hs : (nonNil && !contains set (i : Int)) = true
    · rw [if_pos hs] at h
      exact ih (i + 1) fs paths r fs1 h
    · rw [if_neg hs] at h
      simp only at h
      cases hc : collisionLoop fs (TrimSuffix (Join dir res.Filename)
          (Ext (Join dir res.Filename))) (Ext (Join dir res.Filename)) fuel 1
          (Join dir res.Filename) with
      | none => rw [hc] at h; simp at h
      | some path1 =>
        rw [hc] at h
        simp only at h
        have hfresh := (collisionLoop_some fs _ _ fuel 1 _ path1 hc).1
        cases hw : WriteFile fs path1 res.Data with
        | mk ok fs2 =>
          rw [hw] at h
          cases ok with
          | false =>
            simp only [Option.some.injEq, Prod.mk.injEq] at h
            have := WriteFile_fail fs path1 res.Data (by rw [hw])
            rw [hw] at this
            simp only at this
            rw [← h.2, this]; exact Keeps_refl fs
          | true =>
            simp only at h
            have hok := (WriteFile_fresh_spec fs path1 res.Data hfresh (by rw [hw])).1
            rw [hw] at hok
            exact Keeps_trans hok (ih (i + 1) fs2 _ r fs1 h)

/-- With enough fuel the resource loop returns, and what it returns is a list of paths
or the error of a write. -/
theorem extractLoop_returns (fuel : Nat) (dir : GoString) (nonNil : Bool)
    (set : List Int) :
    ∀ (rest : List Resource) (i : Nat) (fs : FS) (paths : List GoString),
      fs.entries.length + rest.length + 2 ≤ fuel →
      ∃ (r : Except ExtractError (List GoString)) (fs1 : FS),
        extractLoop fuel dir nonNil set rest i fs paths = some (r, fs1) ∧
        ((∃ out, r = Except.ok out) ∨ ∃ path, r = Except.error (ExtractError.write path)) := by
  intro rest
  induction rest with
  | nil =>
    intro i fs paths _
    exact ⟨Except.ok paths, fs, rfl, Or.inl ⟨paths, rfl⟩⟩
  | cons res rest ih =>
    intro i fs paths hf
    simp only [List.length_cons] at hf
    unfold extractLoop
    by_cases hs : (nonNil && !contains set (i : Int)) = true
    · rw [if_pos hs]
      exact ih (i + 1) fs paths (by omega)
    · rw [if_neg hs]
      simp only
      obtain ⟨path1, hc⟩ := collisionLoop_terminates fs
        (TrimSuffix (Join dir res.Filename) (Ext (Join dir res.Filename)))
        (Ext (Join dir res.Filename)) fuel 1 (Join dir res.Filename)
        (Ext_no_sep _) (by omega)
      rw [hc]
      simp only
      have hfresh := (collisionLoop_some fs _ _ fuel 1 _ path1 hc).1
      cases hw : WriteFile fs path1 res.Data with
      | mk ok fs2 =>
        cases ok with
        | false => exact ⟨_, _, rfl, Or.inr ⟨path1, rfl⟩⟩
        | true =>
          simp only
          have hok := WriteFile_fresh_spec fs path1 res.Data hfresh (by rw [hw])
          rw [hw] at hok
          simp only at hok
          exact ih (i + 1) fs2 (paths ++ [path1]) (by omega)

/-- What the writes of the specification leave: each path holds the payload of its
resource, the paths are distinct, none of them existed before, and every node that
existed before still is what it was. -/
theorem WriteTrace_spec (dir : GoString) :
    ∀ (rs : List Resource) (fs : FS) (ps : List GoString) (fs1 : FS),
      WriteTrace dir fs rs ps fs1 →
      List.Forall₂ (fun r path => fs1.readFile path = some r.Data) rs ps ∧
      ps.Nodup ∧
      (∀ path ∈ ps, fileExists fs path = false) ∧
      Keeps fs fs1 := by
  intro rs
  induction rs with
  | nil =>
    intro fs ps fs1 h
    cases ps with
    | nil =>
      simp only [WriteTrace] at h
      subst h
      exact ⟨List.Forall₂.nil, List.nodup_nil, by simp, Keeps_refl _⟩
    | cons a as => simp [WriteTrace] at h
  | cons r rs ih =>
    intro fs ps fs1 h
    cases ps with
    | nil => simp [WriteTrace] at h
    | cons path ps =>
      simp only [WriteTrace] at h
      obtain ⟨hres, hw, htr⟩ := h
      obtain ⟨hF, hN, hfresh, hkeep⟩ := ih _ ps fs1 htr
      obtain ⟨hk1, hread, hex, _, _⟩ := WriteFile_fresh_spec fs path r.Data hres.1 hw
      refine ⟨List.Forall₂.cons (readFile_mono _ fs1 hkeep path _ hread) hF,
        List.nodup_cons.mpr ⟨?_, hN⟩, ?_, Keeps_trans hk1 hkeep⟩
      · intro hm
        have := hfresh path hm
        rw [hex] at this
        simp at this
      · intro q hq
        rcases List.mem_cons.mp hq with e | hm
        · rw [e]; exact hres.1
        · cases hx : fileExists fs q with
          | false => rfl
          | true =>
            have := fileExists_mono fs _ hk1 q hx
            rw [hfresh q hm] at this
            simp at this

/-! ## Extractor: the call -/

/-- A file that can be read is the file at a node. -/
theorem readFile_fileAt (fs : FS) (path : GoString) (d : Bytes)
    (h : fs.readFile path = some d) : ∃ c, fs.fileAt c = some d := by
  unfold FS.readFile Stat at h
  cases hr : resolve fs path with
  | absent c s => rw [hr] at h; simp at h
  | fails => rw [hr] at h; simp at h
  | found c e =>
    rw [hr] at h
    cases e with
    | dir => simp at h
    | file d1 =>
      simp only [Option.some.injEq] at h
      refine ⟨c, ?_⟩
      unfold FS.fileAt
      rw [resolve_found_lookup fs path c _ hr, h]

/-- C1: when `selectedIndices` holds an index `i` with `i < 0` or `i >= len(resources)`,
wherever it sits in the list, `ExtractResources` returns an error (for that or another
bad index once the directory exists) and the regular files and their contents are the
ones from before the call: the same file at every node, every path that could be read
reads the same, and what can be read was a file before. -/
theorem ExtractResources_invalid_index (fuel : Nat) (fs : FS) (p : MHTMLParser)
    (outputDir : GoString) (selected : Option (List Int))
    (h : ∃ idx ∈ selected.getD [], idx < 0 ∨ idx ≥ (p.Resources.length : Int)) :
    ∃ (err : ExtractError) (fs1 : FS),
      ExtractResources fuel fs p outputDir selected = some (Except.error err, fs1) ∧
      (∀ c, fs1.fileAt c = fs.fileAt c) ∧
      (∀ q d, fs.readFile q = some d → fs1.readFile q = some d) ∧
      (∀ q d, fs1.readFile q = some d → ∃ c, fs.fileAt c = some d) ∧
      ((MkdirAll fs outputDir).1 = true →
        ∃ idx ∈ selected.getD [], (idx < 0 ∨ idx ≥ (p.Resources.length : Int)) ∧
          err = ExtractError.invalidIndex idx) := by
  unfold ExtractResources
  obtain ⟨⟨hk, hfile, _, _⟩, _⟩ := MkdirAll_spec fs outputDir
  cases hm : MkdirAll fs outputDir with
  | mk ok fs1 =>
    rw [hm] at hk hfile
    simp only at hk hfile
    have hafter : ∀ q d, fs1.readFile q = some d → ∃ c, fs.fileAt c = some d := by
      intro q d hq
      obtain ⟨c, hc⟩ := readFile_fileAt fs1 q d hq
      exact ⟨c, by rw [← hfile c]; exact hc⟩
    cases ok with
    | false =>
      exact ⟨_, fs1, rfl, hfile, fun q d => readFile_mono fs fs1 hk q d, hafter,
        fun hc => by simp at hc⟩
    | true =>
      obtain ⟨idx, hmem, hbad, hv⟩ := validateSelected_bad p.Resources.length
        (selected.getD []) [] h
      simp only [hv]
      exact ⟨_, fs1, rfl, hfile, fun q d => readFile_mono fs fs1 hk q d, hafter,
        fun _ => ⟨idx, hmem, hbad, rfl⟩⟩

/-- Witness of C1: the list `[0, 2, 1]` on two resources; `2` is out of range. -/
theorem ExtractResources_invalid_index_witness :
    (∃ idx ∈ (some [0, 2, 1] : Option (List Int)).getD [],
      idx < 0 ∨ idx ≥ (sameNameParser.Resources.length : Int)) ∧
    ∃ (err : ExtractError) (fs1 : FS),
      ExtractResources 3 busyFS sameNameParser "out".toList (some [0, 2, 1]) =
        some (Except.error err, fs1) ∧
      (∀ c, fs1.fileAt c = busyFS.fileAt c) ∧
      (∀ q d, busyFS.readFile q = some d → fs1.readFile q = some d) ∧
      (∀ q d, fs1.readFile q = some d → ∃ c, busyFS.fileAt c = some d) ∧
      ((MkdirAll busyFS "out".toList).1 = true →
        ∃ idx ∈ (some [0, 2, 1] : Option (List Int)).getD [],
          (idx < 0 ∨ idx ≥ (sameNameParser.Resources.length : Int)) ∧
          err = ExtractError.invalidIndex idx) :=
  ⟨⟨2, by decide, by decide⟩,
    ExtractResources_invalid_index 3 busyFS sameNameParser "out".toList (some [0, 2, 1])
      ⟨2, by decide, by decide⟩⟩

/-- C5, refuted as stated: with the nil slice, which is empty, the call writes the two
resources of the parser and returns their two paths. -/
theorem ExtractResources_nil_writes :
    emptyFS.readFile "out/name.ext".toList = none ∧
    (ExtractResources 3 emptyFS sameNameParser "out".toList none).map
      (fun r => (r.1.toOption, r.2.readFile "out/name.ext".toList)) =
      some (some ["out/name.ext".toList, "out/name_1.ext".toList], some [1, 2]) := by
  decide

/-- C5, amended: with a non-nil empty slice and an output directory that can be
created, `ExtractResources` returns the empty list without error, and the regular files
and their contents are the ones from before the call (the same file at every node, and
every path that could be read reads the same); with the nil slice it does what it does
with the slice of all the indices. -/
theorem ExtractResources_empty_selection (fuel : Nat) (fs : FS) (p : MHTMLParser)
    (outputDir : GoString) (hmk : (MkdirAll fs outputDir).1 = true) :
    ExtractResources fuel fs p outputDir (some []) =
      some (Except.ok [], (MkdirAll fs outputDir).2) ∧
    (∀ c, (MkdirAll fs outputDir).2.fileAt c = fs.fileAt c) ∧
    (∀ q d, fs.readFile q = some d → (MkdirAll fs outputDir).2.readFile q = some d) ∧
    (∀ q d, (MkdirAll fs outputDir).2.readFile q = some d → ∃ c, fs.fileAt c = some d) ∧
    ExtractResources fuel fs p outputDir none =
      ExtractResources fuel fs p outputDir
        (some ((List.range p.Resources.length).map (fun i : Nat => (i : Int)))) := by
  obtain ⟨⟨hk, hfile, _, _⟩, _⟩ := MkdirAll_spec fs outputDir
  refine ⟨?_, hfile, fun q d => readFile_mono fs _ hk q d, ?_, ?_⟩
  · unfold ExtractResources
    cases hm : MkdirAll fs outputDir with
    | mk ok fs1 =>
      rw [hm] at hmk
      simp only at hmk
      subst hmk
      simp only [Option.getD_some, validateSelected, Option.isSome_some]
      exact extractLoop_none_selected fuel outputDir [] p.Resources 0 fs1 []
        (fun j _ _ => rfl)
  · intro q d hq
    obtain ⟨c, hc⟩ := readFile_fileAt _ q d hq
    exact ⟨c, by rw [← hfile c]; exact hc⟩
  · unfold ExtractResources
    cases hm : MkdirAll fs outputDir with
    | mk ok fs1 =>
      rw [hm] at hmk
      simp only at hmk
      subst hmk
      have hv := validateSelected_ok p.Resources.length
        ((List.range p.Resources.length).map (fun i : Nat => (i : Int))) []
        (fun idx hidx => by
          obtain ⟨i, hi, rfl⟩ := List.mem_map.mp hidx
          have := List.mem_range.mp hi
          omega)
      simp only [Option.getD_none, Option.getD_some, validateSelected, hv,
        Option.isSome_none, Option.isSome_some]
      apply extractLoop_congr
      intro j _ hj
      rw [contains_reverse_range p.Resources.length j (by omega)]
      rfl

/-- Witness of the amended C5: two resources, a filesystem without output directory. -/
theorem ExtractResources_empty_selection_witness :
    (MkdirAll emptyFS "out".toList).1 = true ∧
    ExtractResources 3 emptyFS sameNameParser "out".toList (some []) =
      some (Except.ok [], (MkdirAll emptyFS "out".toList).2) ∧
    (∀ c, (MkdirAll emptyFS "out".toList).2.fileAt c = emptyFS.fileAt c) ∧
    (∀ q d, emptyFS.readFile q = some d →
      (MkdirAll emptyFS "out".toList).2.readFile q = some d) ∧
    (∀ q d, (MkdirAll emptyFS "out".toList).2.readFile q = some d →
      ∃ c, emptyFS.fileAt c = some d) ∧
    ExtractResources 3 emptyFS sameNameParser "out".toList none =
      ExtractResources 3 emptyFS sameNameParser "out".toList
        (some ((List.range sameNameParser.Resources.length).map (fun i : Nat => (i : Int)))) :=
  ⟨by decide,
    ExtractResources_empty_selection 3 emptyFS sameNameParser "out".toList (by decide)⟩

/-! ## Extractor: the claims on the paths -/

theorem validateSelected_result (len : Nat) :
    ∀ (l set s : List Int), validateSelected len l set = Except.ok s →
      s = l.reverse ++ set := by
  intro l
  induction l with
  | nil =>
    intro set s h
    simp only [validateSelected, Except.ok.injEq] at h
    simp [h]
  | cons a rest ih =>
    intro set s h
    unfold validateSelected at h
    by_cases ha : a < 0 ∨ a ≥ (len : Int)
    · rw [if_pos ha] at h; simp at h
    · rw [if_neg ha] at h
      rw [ih (a :: set) s h]; simp

theorem contains_reverse (l : List Int) (x : Int) :
    contains (l.reverse ++ []) x = contains l x := by
  unfold contains
  rw [List.append_nil]
  by_cases h : x ∈ l
  · have e1 : l.contains x = true := List.elem_eq_true_of_mem h
    have e2 : l.reverse.contains x = true :=
      List.elem_eq_true_of_mem (List.mem_reverse.mpr h)
    rw [e1, e2]
  · have e1 : l.contains x = false := by simpa using h
    have e2 : l.reverse.contains x = false := by simpa using h
    rw [e1, e2]

theorem selectedFrom_congr (b : Bool) (s1 s2 : List Int)
    (h : ∀ x, contains s1 x = contains s2 x) :
    ∀ (rest : List Resource) (i : Nat),
      selectedFrom b s1 rest i = selectedFrom b s2 rest i := by
  intro rest
  induction rest with
  | nil => intro i; rfl
  | cons res rest ih =>
    intro i
    unfold selectedFrom
    rw [h, ih (i + 1)]

theorem forall₂_chain {α β γ : Type} (R : α → β → Prop) (S : β → γ → Prop)
    (T : α → γ → Prop) (hRS : ∀ a b c, R a b → S b c → T a c) :
    ∀ (l1 : List α) (l2 : List β) (l3 : List γ),
      List.Forall₂ R l1 l2 → List.Forall₂ S l2 l3 → List.Forall₂ T l1 l3 := by
  intro l1 l2 l3 h1
  induction h1 generalizing l3 with
  | nil => intro h2; cases h2; exact List.Forall₂.nil
  | cons hab _ ih =>
    intro h2
    cases h2 with
    | cons hbc hrest => exact List.Forall₂.cons (hRS _ _ _ hab hbc) (ih _ hrest)

/-- The selected indices: in strictly ascending order, and exactly the indices of the
slice when these are in range. -/
theorem selectedIndices_spec (len : Nat) (l : List Int)
    (hvalid : ∀ idx ∈ l, 0 ≤ idx ∧ idx < (len : Int)) :
    (selectedIndices len l).Pairwise (fun a b => a < b) ∧
    (∀ i : Nat, i ∈ selectedIndices len l ↔ (i : Int) ∈ l) ∧
    (selectedIndices len l).length = l.dedup.length := by
  have hmem : ∀ i : Nat, i ∈ selectedIndices len l ↔ (i : Int) ∈ l := by
    intro i
    unfold selectedIndices
    rw [List.mem_filter, List.mem_range]
    constructor
    · intro ⟨_, h⟩; simpa using h
    · intro h
      have := hvalid _ h
      exact ⟨by omega, by simpa using h⟩
  have hpw : (selectedIndices len l).Pairwise (fun a b => a < b) :=
    List.Pairwise.filter _ (List.pairwise_lt_range len)
  refine ⟨hpw, hmem, ?_⟩
  have hnd : ((selectedIndices len l).map (fun i : Nat => (i : Int))).Nodup :=
    List.Nodup.map (fun a b hab => by simpa using hab)
      (hpw.imp (fun h => Nat.ne_of_lt h))
  have hperm : ((selectedIndices len l).map (fun i : Nat => (i : Int))).Perm l.dedup := by
    rw [List.perm_ext_iff_of_nodup hnd (List.nodup_dedup l)]
    intro x
    rw [List.mem_dedup, List.mem_map]
    constructor
    · rintro ⟨i, hi, rfl⟩; exact (hmem i).mp hi
    · intro hx
      have := hvalid x hx
      refine ⟨x.toNat, (hmem _).mpr ?_, ?_⟩
      · rw [Int.toNat_of_nonneg this.1]; exact hx
      · exact Int.toNat_of_nonneg this.1
  have := hperm.length_eq
  rw [List.length_map] at this
  exact this

theorem extAux_suffix (l : GoString) :
    ∀ acc : GoString, extAux l acc <:+ l.reverse ++ acc := by
  induction l with
  | nil => intro acc; simp [extAux]
  | cons c rest ih =>
    intro acc
    unfold extAux
    by_cases h1 : IsPathSeparator c = true
    · rw [if_pos h1]; exact List.nil_suffix
    · rw [if_neg h1]
      by_cases h2 : c = '.'
      · rw [if_pos h2, List.reverse_cons, List.append_assoc]
        exact List.suffix_append _ _
      · rw [if_neg h2, List.reverse_cons, List.append_assoc]
        exact ih (c :: acc)

theorem TrimSuffix_append (s suf : GoString) (hs : suf <:+ s) :
    TrimSuffix s suf ++ suf = s := by
  unfold TrimSuffix HasSuffix
  rw [if_pos (List.isSuffixOf_iff_suffix.mpr hs)]
  obtain ⟨t, ht⟩ := hs
  subst ht
  have : (t ++ suf).length - suf.length = t.length := by simp
  rw [this, List.take_left]

/-- The extension of a path is a suffix of it: the path is its base followed by its
extension. -/
theorem TrimSuffix_Ext (path : GoString) : TrimSuffix path (Ext path) ++ Ext path = path := by
  apply TrimSuffix_append
  have := extAux_suffix path.reverse []
  simpa [Ext] using this

theorem suffixedPath_one (base ext : GoString) :
    suffixedPath base 1 ext = base ++ "_1".toList ++ ext := by
  unfold suffixedPath
  have : formatDecimal 1 = ['1'] := by decide
  rw [this]; simp

/-- The last element of the candidate path of a plain file name is the name. -/
theorem Join_plain_last (dir name : GoString) (h : IsPlainName name) :
    (Split (Join dir name) PathSeparator).getLast? = some name := by
  rcases (Join_plain dir name h).1 with e | ⟨pre, e⟩
  · rw [e]; unfold Split; rw [splitAux_no_sep _ _ h.2.1]; simp
  · rw [e, Split_dir_name pre name h.2.1]; simp

/-- Two resources of the same plain name, written one after the other where neither
the name nor the name suffixed `_1` exists, go to the name and to the name suffixed
`_1`. -/
theorem WriteTrace_same_name (dir name : GoString) (r1 r2 : Resource) (fs fs1 : FS)
    (paths : List GoString) (h1 : r1.Filename = name) (h2 : r2.Filename = name)
    (hplain : IsPlainName name)
    (hfree : fileExists fs (Join dir name) = false)
    (hfree1 : fileExists fs
      (suffixedPath (TrimSuffix (Join dir name) (Ext name)) 1 (Ext name)) = false)
    (htr : WriteTrace dir fs [r1, r2] paths fs1) :
    paths = [Join dir name,
      suffixedPath (TrimSuffix (Join dir name) (Ext name)) 1 (Ext name)] := by
  have hext : Ext (Join dir name) = Ext name := (Join_plain dir name hplain).2
  cases paths with
  | nil => simp [WriteTrace] at htr
  | cons p1 rest =>
    cases rest with
    | nil => simp [WriteTrace] at htr
    | cons p2 rest2 =>
      cases rest2 with
      | cons p3 rest3 => simp [WriteTrace] at htr
      | nil =>
        simp only [WriteTrace] at htr
        obtain ⟨hres1, hw1, hres2, hw2, _⟩ := htr
        rw [h1] at hres1
        rw [h2] at hres2
        have hp1 : p1 = Join dir name := by
          rcases hres1.2 with ⟨_, e⟩ | ⟨hex, _⟩
          · exact e
          · rw [hfree] at hex; simp at hex
        subst hp1
        obtain ⟨c, hr, hadd, hnone, hc⟩ :=
          WriteFile_fresh_ok fs (Join dir name) r1.Data hfree hw1
        obtain ⟨_, _, hex2, _, _⟩ :=
          WriteFile_fresh_spec fs (Join dir name) r1.Data hfree hw1
        -- the node of the first file ends with the name
        have hres := resolve_add_file fs (Join dir name) c r1.Data hr
        have hclast : c.getLast? = some name :=
          resolve_last _ _ name c _ ⟨hplain.1, hplain.2.2.1, hplain.2.2.2⟩
            (Join_plain_last dir name hplain) hres
        -- the suffixed path does not exist after the first write either
        have hfree1b : fileExists (WriteFile fs (Join dir name) r1.Data).2
            (suffixedPath (TrimSuffix (Join dir name) (Ext name)) 1 (Ext name)) = false := by
          rw [hadd]
          cases hx : fileExists (fs.add c (Entry.file r1.Data))
              (suffixedPath (TrimSuffix (Join dir name) (Ext name)) 1 (Ext name)) with
          | false => rfl
          | true =>
            exfalso
            obtain ⟨c1, e1, hr1⟩ := (fileExists_true_iff _ _).mp hx
            rcases resolve_add_file_found fs _ c c1 r1.Data e1 hc hr1 with hc1 | hold
            · obtain ⟨L, hL, hlast, hn1, hn2, hn3⟩ := suffixedPath_last
                (TrimSuffix (Join dir name) (Ext name)) (Ext name) (Ext_no_sep name) 1
              have hc1last := resolve_last _ _ _ c1 e1 ⟨hn1, hn2, hn3⟩ hlast hr1
              rw [hc1, hclast] at hc1last
              have hname : name = suffixedPath L 1 (Ext name) := Option.some.inj hc1last
              -- the name is the last element of the base followed by the extension
              have hbase : (Split (TrimSuffix (Join dir name) (Ext name) ++ Ext name)
                  PathSeparator).getLast? = some (L ++ Ext name) := by
                unfold Split at hL ⊢
                rw [splitAux_getLast_append _ _ _ (Ext_no_sep name), hL]; rfl
              have hte := TrimSuffix_Ext (Join dir name)
              rw [hext] at hte
              rw [hte, Join_plain_last dir name hplain] at hbase
              have hname2 : name = L ++ Ext name := Option.some.inj hbase
              have hl := congrArg List.length hname
              rw [suffixedPath_one] at hl
              have hl2 := congrArg List.length hname2
              simp at hl hl2
              omega
            · have := (fileExists_false_iff fs _).mp hfree1 c1 e1
              exact this hold
        have hp2 : p2 = suffixedPath (TrimSuffix (Join dir name) (Ext name)) 1 (Ext name) := by
          rcases hres2.2 with ⟨hnex, _⟩ | ⟨_, k, hk, e, hall⟩
          · rw [hex2] at hnex; simp at hnex
          · rw [hext] at e hall
            by_cases hk1 : k = 1
            · rw [hk1] at e; exact e
            · have := hall 1 (le_refl 1) (by omega)
              rw [hfree1b] at this
              simp at this
        rw [hp2]

/-- A run of `ExtractResources` on indices in range, once the directory is made, with
enough fuel: it returns, either the error of a write, or paths that come from the
writes of the specification for the selected resources. -/
theorem ExtractResources_valid_run (fuel : Nat) (fs : FS) (p : MHTMLParser)
    (outputDir : GoString) (selected : Option (List Int))
    (hmk : (MkdirAll fs outputDir).1 = true)
    (hvalid : ∀ idx ∈ selected.getD [], 0 ≤ idx ∧ idx < (p.Resources.length : Int))
    (hfuel : fs.entries.length + (outputDir.length + 1) + p.Resources.length + 2 ≤ fuel) :
    ∃ (r : Except ExtractError (List GoString)) (fs1 : FS),
      ExtractResources fuel fs p outputDir selected = some (r, fs1) ∧
      ExtractResources fuel fs p outputDir selected =
        extractLoop fuel outputDir selected.isSome ((selected.getD []).reverse ++ [])
          p.Resources 0 (MkdirAll fs outputDir).2 [] ∧
      ((∃ paths, r = Except.ok paths ∧
          WriteTrace outputDir (MkdirAll fs outputDir).2
            (selectedFrom selected.isSome (selected.getD []) p.Resources 0) paths fs1) ∨
        ∃ path, r = Except.error (ExtractError.write path)) := by
  obtain ⟨_, hmlen⟩ := MkdirAll_spec fs outputDir
  have hrun : ExtractResources fuel fs p outputDir selected =
      extractLoop fuel outputDir selected.isSome ((selected.getD []).reverse ++ [])
        p.Resources 0 (MkdirAll fs outputDir).2 [] := by
    unfold ExtractResources
    cases hm : MkdirAll fs outputDir with
    | mk ok fsm =>
      rw [hm] at hmk
      simp only at hmk
      subst hmk
      simp only [validateSelected_ok p.Resources.length (selected.getD []) [] hvalid]
  obtain ⟨r, fs1, hr, hcases⟩ := extractLoop_returns fuel outputDir selected.isSome
    ((selected.getD []).reverse ++ []) p.Resources 0 (MkdirAll fs outputDir).2 []
    (by omega)
  refine ⟨r, fs1, hrun.trans hr, hrun, ?_⟩
  rcases hcases with ⟨out, hout⟩ | hwerr
  · left
    subst hout
    obtain ⟨new, hnew, htr⟩ := extractLoop_trace fuel outputDir selected.isSome _
      p.Resources 0 _ [] out fs1 hr
    rw [List.nil_append] at hnew
    subst hnew
    rw [selectedFrom_congr _ _ (selected.getD []) (fun x => contains_reverse _ x)] at htr
    exact ⟨out, rfl, htr⟩
  · exact Or.inr hwerr

/-- C3, refuted as stated: a resource with the empty file name, extracted to `out.d`.
The candidate path is `out.d`, the directory; the file name has no extension, so the
claim gives `out.d_1`; the code takes the extension `.d` of the candidate path and
writes `out_1.d`. -/
theorem ExtractResources_ext_of_candidate :
    Join "out.d".toList [] = "out.d".toList ∧
    Ext ([] : GoString) = [] ∧
    suffixedPath (TrimSuffix (Join "out.d".toList []) (Ext ([] : GoString))) 1
      (Ext ([] : GoString)) = "out.d_1".toList ∧
    (ExtractResources 3 emptyFS emptyNameParser "out.d".toList none).map
      (fun r => (r.1.toOption, r.2.readFile "out_1.d".toList,
        r.2.readFile "out.d_1".toList)) =
      some (some ["out_1.d".toList], some [7], none) := by
  decide

/-- C3, amended: with enough fuel `ExtractResources` returns; whatever it returns, every
node that existed before the call still is what it was (no file is overwritten); when
it returns paths, they come from the writes of the specification, each to the resolved
path on the filesystem as the earlier writes left it (a path that did not exist: the
candidate `filepath.Join(outputDir, filename)` if free, else `base_k+ext` for the
smallest `k >= 1` that is free, `ext` being the extension of the candidate path and
`base` the candidate path without it), so the paths are distinct and none existed
before; for a plain file name the candidate ends with the name and `ext` is the
extension of the name; two resources of the same plain name, extracted to a directory
that holds neither the name nor the name suffixed `_1`, go to these two paths, which
are distinct and hold the two payloads; and two resources named `name.ext` go to
`out/name.ext` and `out/name_1.ext`. -/
theorem ExtractResources_collision_free (fuel : Nat) (fs : FS) (p : MHTMLParser)
    (outputDir : GoString) (selected : Option (List Int))
    (hfuel : fs.entries.length + (outputDir.length + 1) + p.Resources.length + 2 ≤ fuel) :
    (∃ (r : Except ExtractError (List GoString)) (fs1 : FS),
      ExtractResources fuel fs p outputDir selected = some (r, fs1) ∧
      Keeps fs fs1 ∧
      (∀ c d, fs.fileAt c = some d → fs1.fileAt c = some d) ∧
      (∀ paths, r = Except.ok paths →
        WriteTrace outputDir (MkdirAll fs outputDir).2
          (selectedFrom selected.isSome (selected.getD []) p.Resources 0) paths fs1 ∧
        paths.Nodup ∧ ∀ path ∈ paths, fileExists fs path = false)) ∧
    (∀ res ∈ p.Resources, IsPlainName res.Filename →
      (Join outputDir res.Filename = res.Filename ∨
        ∃ pre, Join outputDir res.Filename = pre ++ PathSeparator :: res.Filename) ∧
      Ext (Join outputDir res.Filename) = Ext res.Filename) ∧
    (∀ (name : GoString) (r1 r2 : Resource),
      p.Resources = [r1, r2] → r1.Filename = name → r2.Filename = name →
      IsPlainName name → (selected = none ∨ selected = some [0, 1]) →
      (MkdirAll fs outputDir).1 = true →
      fileExists (MkdirAll fs outputDir).2 (Join outputDir name) = false →
      fileExists (MkdirAll fs outputDir).2
        (suffixedPath (TrimSuffix (Join outputDir name) (Ext name)) 1 (Ext name)) = false →
      (∀ path fs1, ExtractResources fuel fs p outputDir selected ≠
        some (Except.error (ExtractError.write path), fs1)) →
      ∃ fs1 : FS,
        ExtractResources fuel fs p outputDir selected =
          some (Except.ok [Join outputDir name,
            suffixedPath (TrimSuffix (Join outputDir name) (Ext name)) 1 (Ext name)], fs1) ∧
        Join outputDir name ≠
          suffixedPath (TrimSuffix (Join outputDir name) (Ext name)) 1 (Ext name) ∧
        fs1.readFile (Join outputDir name) = some r1.Data ∧
        fs1.readFile
          (suffixedPath (TrimSuffix (Join outputDir name) (Ext name)) 1 (Ext name)) =
          some r2.Data ∧
        suffixedPath (TrimSuffix (Join outputDir name) (Ext name)) 1 (Ext name) =
          TrimSuffix (Join outputDir name) (Ext name) ++ "_1".toList ++ Ext name ∧
        TrimSuffix (Join outputDir name) (Ext name) ++ Ext name = Join outputDir name) ∧
    (ExtractResources 3 emptyFS sameNameParser "out".toList (some [0, 1])).map
      (fun r => (r.1.toOption, r.2.readFile "out/name.ext".toList,
        r.2.readFile "out/name_1.ext".toList)) =
      some (some ["out/name.ext".toList, "out/name_1.ext".toList], some [1, 2], some [3]) := by
  obtain ⟨⟨hmk, _, _, _⟩, hmlen⟩ := MkdirAll_spec fs outputDir
  have hfileAt : ∀ (fs1 : FS), Keeps fs fs1 →
      ∀ c d, fs.fileAt c = some d → fs1.fileAt c = some d := by
    intro fs1 hk c d hc
    unfold FS.fileAt at hc ⊢
    cases hl : fs.lookup c with
    | none => rw [hl] at hc; simp at hc
    | some e => rw [hk.2 c e hl]; rw [hl] at hc; exact hc
  refine ⟨?_, fun res _ hplain => Join_plain outputDir res.Filename hplain, ?_, by decide⟩
  · -- the general run
    by_cases hok : (MkdirAll fs outputDir).1 = true
    · by_cases hvalid : ∀ idx ∈ selected.getD [],
          0 ≤ idx ∧ idx < (p.Resources.length : Int)
      · obtain ⟨r, fs1, hr, hloop, hcases⟩ :=
          ExtractResources_valid_run fuel fs p outputDir selected hok hvalid hfuel
        have hk : Keeps fs fs1 :=
          Keeps_trans hmk (extractLoop_keeps fuel outputDir _ _ p.Resources 0 _ [] r fs1
            (hloop.symm.trans hr))
        refine ⟨r, fs1, hr, hk, hfileAt fs1 hk, ?_⟩
        intro paths hp
        rcases hcases with ⟨out, hout, htr⟩ | ⟨path, hpath⟩
        · rw [hout] at hp
          have hpo : out = paths := Except.ok.inj hp
          subst hpo
          obtain ⟨_, hnd, hfresh, _⟩ := WriteTrace_spec outputDir _ _ out fs1 htr
          refine ⟨htr, hnd, fun path hpath => ?_⟩
          cases hex : fileExists fs path with
          | false => rfl
          | true =>
            have := fileExists_mono fs _ hmk path hex
            rw [hfresh path hpath] at this
            simp at this
        · rw [hpath] at hp; simp at hp
      · -- an index out of range
        have hbad : ∃ idx ∈ selected.getD [], idx < 0 ∨ idx ≥ (p.Resources.length : Int) := by
          by_contra hcon
          apply hvalid
          intro idx hidx
          by_contra hnot
          exact hcon ⟨idx, hidx, by omega⟩
        obtain ⟨idx, _, _, hv⟩ := validateSelected_bad p.Resources.length
          (selected.getD []) [] hbad
        refine ⟨Except.error (ExtractError.invalidIndex idx), (MkdirAll fs outputDir).2,
          ?_, hmk, hfileAt _ hmk, fun paths hp => by simp at hp⟩
        unfold ExtractResources
        cases hm : MkdirAll fs outputDir with
        | mk ok fsm =>
          rw [hm] at hok
          simp only at hok
          subst hok
          simp only [hv]
    · refine ⟨Except.error ExtractError.mkdir, (MkdirAll fs outputDir).2,
        ?_, hmk, hfileAt _ hmk, fun paths hp => by simp at hp⟩
      unfold ExtractResources
      cases hm : MkdirAll fs outputDir with
      | mk ok fsm =>
        rw [hm] at hok
        simp only at hok
        have : ok = false := by simpa using hok
        subst this
        rfl
  · -- two resources of the same name
    intro name r1 r2 hres h1 h2 hplain hsel hok hfree hfree1 hnowrite
    have hvalid : ∀ idx ∈ selected.getD [],
        0 ≤ idx ∧ idx < (p.Resources.length : Int) := by
      rw [hres]
      rcases hsel with e | e
      · subst e; intro idx hidx; simp at hidx
      · subst e
        intro idx hidx
        simp only [Option.getD_some, List.mem_cons, List.mem_singleton, List.not_mem_nil,
          or_false] at hidx
        rcases hidx with e | e <;> subst e <;> simp
    obtain ⟨r, fs1, hr, _, hcases⟩ :=
      ExtractResources_valid_run fuel fs p outputDir selected hok hvalid hfuel
    rcases hcases with ⟨out, hout, htr⟩ | ⟨path, hpath⟩
    · have hselFrom : selectedFrom selected.isSome (selected.getD []) p.Resources 0 =
          [r1, r2] := by
        rw [hres]
        rcases hsel with e | e <;> subst e <;> rfl
      rw [hselFrom] at htr
      have hpaths := WriteTrace_same_name outputDir name r1 r2 _ fs1 out h1 h2 hplain
        hfree hfree1 htr
      subst hpaths
      obtain ⟨hF, hnd, _, _⟩ := WriteTrace_spec outputDir _ _ _ fs1 htr
      refine ⟨fs1, by rw [hr, hout], ?_, ?_, ?_, suffixedPath_one _ _, ?_⟩
      · intro e
        rw [List.nodup_cons] at hnd
        apply hnd.1
        rw [← e]; simp
      · cases hF with
        | cons ha _ => exact ha
      · cases hF with
        | cons _ hrest =>
          cases hrest with
          | cons hb _ => exact hb
      · have := TrimSuffix_Ext (Join outputDir name)
        rw [(Join_plain outputDir name hplain).2] at this
        exact this
    · exact absurd (by rw [hr, hpath]) (hnowrite path fs1)

/-- A call that returns paths returns the error of no write. -/
theorem no_write_error_of_ok (x : Option (Except ExtractError (List GoString) × FS))
    (h : x.map (fun r => r.1.toOption.isSome) = some true) :
    ∀ (path : GoString) (fs1 : FS),
      x ≠ some (Except.error (ExtractError.write path), fs1) := by
  intro path fs1 e
  rw [e] at h
  simp [Except.toOption] at h

/-- Witness of the amended C3: a filesystem that holds `out/name.ext`, two resources of
that name; and the same two resources on a filesystem without output directory. -/
theorem ExtractResources_collision_free_witness :
    busyFS.entries.length + ("out".toList.length + 1) +
      sameNameParser.Resources.length + 2 ≤ 12 ∧
    (∃ (r : Except ExtractError (List GoString)) (fs1 : FS),
      ExtractResources 12 busyFS sameNameParser "out".toList (some [0, 1]) = some (r, fs1) ∧
      Keeps busyFS fs1 ∧
      (∀ c d, busyFS.fileAt c = some d → fs1.fileAt c = some d) ∧
      (∀ paths, r = Except.ok paths →
        WriteTrace "out".toList (MkdirAll busyFS "out".toList).2
          (selectedFrom (some [0, 1] : Option (List Int)).isSome
            ((some [0, 1] : Option (List Int)).getD []) sameNameParser.Resources 0)
          paths fs1 ∧
        paths.Nodup ∧ ∀ path ∈ paths, fileExists busyFS path = false)) ∧
    ∃ fs1 : FS,
      ExtractResources 9 emptyFS sameNameParser "out".toList (some [0, 1]) =
        some (Except.ok [Join "out".toList "name.ext".toList,
          suffixedPath (TrimSuffix (Join "out".toList "name.ext".toList)
            (Ext "name.ext".toList)) 1 (Ext "name.ext".toList)], fs1) ∧
      Join "out".toList "name.ext".toList ≠
        suffixedPath (TrimSuffix (Join "out".toList "name.ext".toList)
          (Ext "name.ext".toList)) 1 (Ext "name.ext".toList) ∧
      fs1.readFile (Join "out".toList "name.ext".toList) =
        some (⟨"text/css".toList, "name.ext".toList, [1, 2], 2, "embedded".toList⟩ :
          Resource).Data ∧
      fs1.readFile
        (suffixedPath (TrimSuffix (Join "out".toList "name.ext".toList)
          (Ext "name.ext".toList)) 1 (Ext "name.ext".toList)) =
        some (⟨"text/css".toList, "name.ext".toList, [3], 1, "embedded".toList⟩ :
          Resource).Data ∧
      suffixedPath (TrimSuffix (Join "out".toList "name.ext".toList)
          (Ext "name.ext".toList)) 1 (Ext "name.ext".toList) =
        TrimSuffix (Join "out".toList "name.ext".toList) (Ext "name.ext".toList) ++
          "_1".toList ++ Ext "name.ext".toList ∧
      TrimSuffix (Join "out".toList "name.ext".toList) (Ext "name.ext".toList) ++
        Ext "name.ext".toList = Join "out".toList "name.ext".toList :=
  ⟨by decide,
    (ExtractResources_collision_free 12 busyFS sameNameParser "out".toList (some [0, 1])
      (by decide)).1,
    (ExtractResources_collision_free 9 emptyFS sameNameParser "out".toList (some [0, 1])
      (by decide)).2.2.1 "name.ext".toList _ _ rfl rfl rfl
      (by unfold IsPlainName; decide) (Or.inr rfl)
      (by decide) (by decide) (by decide) (no_write_error_of_ok _ (by decide))⟩

/-- C4, refuted as stated: the nil slice has no index, all its indices are in range,
and the call returns a path. -/
theorem ExtractResources_nil_not_per_index :
    (∀ idx ∈ (none : Option (List Int)).getD [],
      0 ≤ idx ∧ idx < (singleParser.Resources.length : Int)) ∧
    ((none : Option (List Int)).getD []).dedup.length = 0 ∧
    (ExtractResources 2 emptyFS singleParser "out".toList none).map
      (fun r => r.1.toOption) = some (some ["out/a.css".toList]) := by
  refine ⟨by decide, by simp, by decide⟩

/-- C4, amended: for a non-nil slice whose indices are all in range, when the directory
is created and every write succeeds (the call returns the error of no write),
`ExtractResources` returns exactly one path per distinct selected index, in ascending
order of index: the `k`-th path holds the payload of the resource of the `k`-th smallest
selected index; and a slice with the same indices, in any order and with any
repetition, gives the same result. -/
theorem ExtractResources_ascending (fuel : Nat) (fs : FS) (p : MHTMLParser)
    (outputDir : GoString) (l : List Int)
    (hvalid : ∀ idx ∈ l, 0 ≤ idx ∧ idx < (p.Resources.length : Int))
    (hmk : (MkdirAll fs outputDir).1 = true)
    (hw : ∀ (path : GoString) (fs1 : FS),
      ExtractResources fuel fs p outputDir (some l) ≠
        some (Except.error (ExtractError.write path), fs1))
    (hfuel : fs.entries.length + (outputDir.length + 1) + p.Resources.length + 2 ≤ fuel) :
    ∃ (paths : List GoString) (fs1 : FS),
      ExtractResources fuel fs p outputDir (some l) = some (Except.ok paths, fs1) ∧
      paths.length = l.dedup.length ∧
      List.Forall₂
        (fun i path => ∃ res, p.Resources[i]? = some res ∧
          fs1.readFile path = some res.Data)
        (selectedIndices p.Resources.length l) paths ∧
      (selectedIndices p.Resources.length l).Pairwise (fun a b => a < b) ∧
      (∀ i : Nat, i ∈ selectedIndices p.Resources.length l ↔ (i : Int) ∈ l) ∧
      ∀ l2 : List Int, (∀ x, x ∈ l2 ↔ x ∈ l) →
        ExtractResources fuel fs p outputDir (some l2) = some (Except.ok paths, fs1) := by
  obtain ⟨hpw, hmem, hlen⟩ := selectedIndices_spec p.Resources.length l hvalid
  obtain ⟨r, fs1, hr, hloop, hcases⟩ :=
    ExtractResources_valid_run fuel fs p outputDir (some l) hmk hvalid hfuel
  rcases hcases with ⟨paths, hout, htr⟩ | ⟨path, hpath⟩
  · subst hout
    simp only [Option.isSome_some, Option.getD_some] at htr hloop
    obtain ⟨hF, _, _, _⟩ := WriteTrace_spec outputDir _ _ paths fs1 htr
    have hidx := selectedFrom_indices l p.Resources 0
    have hfilter : (List.range' 0 p.Resources.length).filter
        (fun j : Nat => contains l (j : Int)) = selectedIndices p.Resources.length l := by
      unfold selectedIndices
      rw [List.range_eq_range']
      rfl
    rw [hfilter] at hidx
    have hF2 : List.Forall₂
        (fun i path => ∃ res, p.Resources[i]? = some res ∧
          fs1.readFile path = some res.Data)
        (selectedIndices p.Resources.length l) paths :=
      forall₂_chain _ _ _ (fun i res path h1 h2 => ⟨res, by simpa using h1.2, h2⟩)
        _ _ _ hidx hF
    refine ⟨paths, fs1, hr, ?_, hF2, hpw, hmem, ?_⟩
    · rw [← hF2.length_eq, hlen]
    · intro l2 h2
      have hvalid2 : ∀ idx ∈ l2, 0 ≤ idx ∧ idx < (p.Resources.length : Int) :=
        fun idx hidx => hvalid idx ((h2 idx).mp hidx)
      obtain ⟨_, _, _, hloop2, _⟩ :=
        ExtractResources_valid_run fuel fs p outputDir (some l2) hmk hvalid2 hfuel
      simp only [Option.isSome_some, Option.getD_some] at hloop2
      rw [hloop2, ← hr, hloop]
      apply extractLoop_congr
      intro j _ _
      rw [contains_reverse, contains_reverse]
      unfold contains
      by_cases hj : (j : Int) ∈ l
      · have e1 : l.contains (j : Int) = true := List.elem_eq_true_of_mem hj
        have e2 : l2.contains (j : Int) = true :=
          List.elem_eq_true_of_mem ((h2 _).mpr hj)
        rw [e1, e2]
      · have e1 : l.contains (j : Int) = false := by simpa using hj
        have e2 : l2.contains (j : Int) = false := by
          have : (j : Int) ∉ l2 := fun hm2 => hj ((h2 _).mp hm2)
          simpa using this
        rw [e1, e2]
  · exact absurd (hr.trans (by rw [hpath])) (hw path fs1)

/-- Witness of the amended C4: the slice `[1, 0, 1]` on two resources. -/
theorem ExtractResources_ascending_witness :
    (∀ idx ∈ ([1, 0, 1] : List Int),
      0 ≤ idx ∧ idx < (sameNameParser.Resources.length : Int)) ∧
    (MkdirAll emptyFS "out".toList).1 = true ∧
    ∃ (paths : List GoString) (fs1 : FS),
      ExtractResources 9 emptyFS sameNameParser "out".toList (some [1, 0, 1]) =
        some (Except.ok paths, fs1) ∧
      paths.length = ([1, 0, 1] : List Int).dedup.length ∧
      List.Forall₂
        (fun i path => ∃ res, sameNameParser.Resources[i]? = some res ∧
          fs1.readFile path = some res.Data)
        (selectedIndices sameNameParser.Resources.length [1, 0, 1]) paths ∧
      (selectedIndices sameNameParser.Resources.length [1, 0, 1]).Pairwise
        (fun a b => a < b) ∧
      (∀ i : Nat, i ∈ selectedIndices sameNameParser.Resources.length [1, 0, 1] ↔
        (i : Int) ∈ ([1, 0, 1] : List Int)) ∧
      ∀ l2 : List Int, (∀ x, x ∈ l2 ↔ x ∈ ([1, 0, 1] : List Int)) →
        ExtractResources 9 emptyFS sameNameParser "out".toList (some l2) =
          some (Except.ok paths, fs1) :=
  ⟨by decide, by decide,
    ExtractResources_ascending 9 emptyFS sameNameParser "out".toList [1, 0, 1]
      (by decide) (by decide) (no_write_error_of_ok _ (by decide)) (by decide)⟩

end MHTML
